import Mathlib

/-!
Verification development for the powergit pack transport and object-index
bridge.  The definitions below are shallow embeddings of the TypeScript
source: the daemon's `normalizePackBytes` / `isLikelyBase64` /
`buildPushErrorResults` / `fetchPack` / `pushPack` handlers
(`packages/daemon/src/index.ts`), the HTTP route and payload parsing of
`createDaemonServer` (`server.ts`), and the virtual filesystem
`PowerSyncFs` with its `PackFileStore` blob store
(`packages/apps/explorer/src/ps/git-store-config.ts`,
`pack-file-store.ts`).  JavaScript strings are modelled as `List Char`,
byte buffers as `List Nat` (each element `< 256`), and `Date.now()` as an
explicit `now : Nat` argument.
-/

set_option autoImplicit false
set_option maxHeartbeats 1000000

namespace Powergit

abbrev Chars := List Char

/-! ## Association lists with JavaScript `Map` / object semantics

`lookupA` finds the first binding, `setA` replaces in place (keeping the
insertion position) or appends, `delA` removes a binding — exactly the
observable behaviour of `Map.get` / `Map.set` / `Map.delete` and of plain
object property assignment. -/

def lookupA {κ : Type} [DecidableEq κ] {α : Type} : List (κ × α) → κ → Option α
  | [], _ => none
  | (k, v) :: rest, key => if k = key then some v else lookupA rest key

def setA {κ : Type} [DecidableEq κ] {α : Type} : List (κ × α) → κ → α → List (κ × α)
  | [], key, value => [(key, value)]
  | (k, v) :: rest, key, value =>
      if k = key then (key, value) :: rest else (k, v) :: setA rest key value

def delA {κ : Type} [DecidableEq κ] {α : Type} : List (κ × α) → κ → List (κ × α)
  | [], _ => []
  | (k, v) :: rest, key => if k = key then rest else (k, v) :: delA rest key

/-! ## JavaScript string primitives

`jsTrim` models `String.prototype.trim` (the ECMAScript WhiteSpace and
LineTerminator code points); buffers obtained from strings use UTF-16 code
units, so `Buffer.from(s, 'binary')` is `charCode % 256` per character. -/

def jsWsCodes : List Nat :=
  [9, 10, 11, 12, 13, 32, 160, 5760, 8192, 8193, 8194, 8195, 8196, 8197, 8198,
   8199, 8200, 8201, 8202, 8232, 8233, 8239, 8287, 12288, 65279]

def isJsWs (c : Char) : Bool := jsWsCodes.contains c.toNat

def jsTrim (cs : Chars) : Chars :=
  ((cs.dropWhile isJsWs).reverse.dropWhile isJsWs).reverse

/-! ## Base64 (Node `Buffer` semantics)

`b64EncodeList` is `Buffer.prototype.toString('base64')` (standard RFC 4648
alphabet with `=` padding); `b64DecodeList` is `Buffer.from(s, 'base64')`
restricted to strings matching the daemon's `isLikelyBase64` guard
(`^[A-Za-z0-9+/]+={0,2}$` with length divisible by 4), on which Node's
lenient decoder agrees with the standard chunked decoding below. -/

def b64Alphabet : Chars :=
  "ABCDEFGHIJKLMNOPQRSTUVWXYZabcdefghijklmnopqrstuvwxyz0123456789+/".data

def b64Char (n : Nat) : Char := b64Alphabet.getD n '='

def b64Index (c : Char) : Nat :=
  match b64Alphabet.indexOf? c with
  | some i => i
  | none => 64

def isB64Char (c : Char) : Bool := b64Alphabet.contains c

def b64EncodeList : List Nat → Chars
  | [] => []
  | [a] => [b64Char (a / 4), b64Char (a % 4 * 16), '=', '=']
  | [a, b] => [b64Char (a / 4), b64Char (a % 4 * 16 + b / 16), b64Char (b % 16 * 4), '=']
  | a :: b :: c :: rest =>
      b64Char (a / 4) :: b64Char (a % 4 * 16 + b / 16) ::
      b64Char (b % 16 * 4 + c / 64) :: b64Char (c % 64) :: b64EncodeList rest

def b64DecodeList : Chars → List Nat
  | c1 :: c2 :: c3 :: c4 :: rest =>
      if c3 = '=' then [b64Index c1 * 4 + b64Index c2 / 16]
      else if c4 = '=' then
        [b64Index c1 * 4 + b64Index c2 / 16, b64Index c2 % 16 * 16 + b64Index c3 / 4]
      else
        (b64Index c1 * 4 + b64Index c2 / 16) ::
        (b64Index c2 % 16 * 16 + b64Index c3 / 4) ::
        (b64Index c3 % 4 * 64 + b64Index c4) :: b64DecodeList rest
  | _ => []

/-! ## Hex digits (`/^[0-9a-fA-F]+$/` and `Buffer.from(hex, 'hex')`) -/

def isHexDigit (c : Char) : Bool :=
  ('0' ≤ c && c ≤ '9') || ('a' ≤ c && c ≤ 'f') || ('A' ≤ c && c ≤ 'F')

def hexVal (c : Char) : Nat :=
  if '0' ≤ c ∧ c ≤ '9' then c.toNat - 48
  else if 'a' ≤ c ∧ c ≤ 'f' then c.toNat - 87
  else if 'A' ≤ c ∧ c ≤ 'F' then c.toNat - 55
  else 0

def hexDecode : Chars → List Nat
  | c1 :: c2 :: rest => (hexVal c1 * 16 + hexVal c2) :: hexDecode rest
  | _ => []

/-! ## `isLikelyBase64` (daemon/src/index.ts)

`b64Regex` models `/^[A-Za-z0-9+/]+={0,2}$/.test`: a non-empty run of
alphabet characters followed by at most two `=`. -/

def b64Regex (cs : Chars) : Bool :=
  let body := cs.takeWhile isB64Char
  let rest := cs.drop body.length
  decide (1 ≤ body.length) && rest.all (fun c => decide (c = '=')) &&
    decide (rest.length ≤ 2)

def isLikelyBase64 (cs : Chars) : Bool :=
  if cs.length = 0 ∨ cs.length % 4 ≠ 0 then false else b64Regex cs

/-! ## JavaScript values

`JsValue` models the `unknown` payloads the daemon receives after JSON
parsing (plus `undefined` for absent fields). -/

inductive JsValue where
  | undefined
  | nullv
  | boolean (b : Bool)
  | num (n : Int)
  | str (s : String)
  | obj (fields : List (String × JsValue))
  | arr (elems : List JsValue)

/-- JavaScript truthiness test `!v` (only the primitive cases the daemon
meets: objects and arrays are always truthy). -/
def JsValue.isFalsy : JsValue → Bool
  | .undefined => true
  | .nullv => true
  | .boolean b => !b
  | .num n => n == 0
  | .str s => s == ""
  | _ => false

/-- `typeof v === 'object'` (true for objects, arrays and `null`). -/
def JsValue.isObjectType : JsValue → Bool
  | .obj _ => true
  | .arr _ => true
  | .nullv => true
  | _ => false

/-- Property access `v.k` (`undefined` on non-objects or absent keys). -/
def JsValue.getField : JsValue → String → JsValue
  | .obj fields, k =>
      match lookupA fields k with
      | some v => v
      | none => .undefined
  | _, _ => .undefined

/-- `typeof v === 'string' ? v : default` as used all over the daemon. -/
def JsValue.asStringOr (v : JsValue) (dflt : String) : String :=
  match v with
  | .str s => s
  | _ => dflt

def JsValue.asStringOpt (v : JsValue) : Option String :=
  match v with
  | .str s => some s
  | _ => none

/-! ## `normalizePackBytes` (daemon/src/index.ts, lines 15-46)

The input is the stored `pack_bytes` column (an `unknown`); non-strings
and empty strings are rejected, then a `\x`-prefixed hex literal, a
likely-base64 string, and finally latin-1 "binary" interpretation are
tried in order.  Node's `Buffer.from(_, 'base64')` never throws, so the
source's `catch` fall-through is dead code. -/

structure NormalizedPack where
  base64 : String
  size : Nat
deriving DecidableEq

def b64OrBinary (trimmed : Chars) : Option NormalizedPack :=
  if isLikelyBase64 trimmed then
    let buffer := b64DecodeList trimmed
    if buffer.length = 0 then none
    else some ⟨String.mk (b64EncodeList buffer), buffer.length⟩
  else
    let fallbackBuffer := trimmed.map (fun c => c.toNat % 256)
    if fallbackBuffer.length = 0 then none
    else some ⟨String.mk (b64EncodeList fallbackBuffer), fallbackBuffer.length⟩

def normalizePackChars (cs : Chars) : Option NormalizedPack :=
  if cs.length = 0 then none
  else
    let trimmed := jsTrim cs
    if ['\\', 'x'].isPrefixOf trimmed then
      let hex := trimmed.drop 2
      if decide (1 ≤ hex.length) && hex.all isHexDigit &&
          decide (hex.length % 2 = 0) then
        let buffer := hexDecode hex
        if buffer.length = 0 then none
        else some ⟨String.mk (b64EncodeList buffer), buffer.length⟩
      else b64OrBinary trimmed
    else b64OrBinary trimmed

def normalizePackBytes (raw : JsValue) : Option NormalizedPack :=
  match raw with
  | .str s => normalizePackChars s.data
  | _ => none

/-! ## `fetchPack` handler and `/git/fetch` route

`getLatestPack` (daemon `queries.ts`) is outside the provided sources; the
handler is therefore parameterised by its outcome: an exception (caught
and logged), no row, or a row.  `fetchRoute` is the `git/fetch` branch of
`createDaemonServer` (server.ts lines 395-438). -/

structure PackRow where
  pack_bytes : JsValue
  pack_oid : Option String
  created_at : Option String

structure DaemonPackResponse where
  packBase64 : String
  encoding : String
  packOid : Option String
  createdAt : Option String
  size : Nat

def fetchPackHandler (lookupResult : Except String (Option PackRow)) :
    Option DaemonPackResponse :=
  match lookupResult with
  | .error _ => none
  | .ok none => none
  | .ok (some row) =>
      match normalizePackBytes row.pack_bytes with
      | none => none
      | some normalized =>
          some ⟨normalized.base64, "base64", row.pack_oid, row.created_at,
            normalized.size⟩

structure FetchRouteResult where
  status : Nat
  pack : Option String
deriving DecidableEq

def fetchRoute (handlerResult : Option DaemonPackResponse) : FetchRouteResult :=
  match handlerResult with
  | none => ⟨404, none⟩
  | some payload => ⟨200, some payload.packBase64⟩

/-! ## Push updates and results

`parseUpdates` (server.ts lines 597-612) filters the raw `updates` array
down to entries with a non-empty string `dst`.  `fromEntries` is
`Object.fromEntries`: first occurrence fixes the position, the last value
for a key wins. -/

structure PushUpdateRow where
  src : String
  dst : String
  force : Bool
deriving DecidableEq

def parseUpdateEntries : List JsValue → List PushUpdateRow
  | [] => []
  | e :: rest =>
      if e.isFalsy || !e.isObjectType then parseUpdateEntries rest
      else
        let src := (e.getField "src").asStringOr ""
        let dst := (e.getField "dst").asStringOr ""
        if dst = "" then parseUpdateEntries rest
        else
          let force := match e.getField "force" with
            | .boolean true => true
            | _ => false
          ⟨src, dst, force⟩ :: parseUpdateEntries rest

def parseUpdates (raw : JsValue) : List PushUpdateRow :=
  match raw with
  | .arr entries => parseUpdateEntries entries
  | _ => []

structure PushResultEntry where
  status : String
  message : Option String
deriving DecidableEq

def fromEntries {α : Type} (pairs : List (String × α)) : List (String × α) :=
  pairs.foldl (fun acc kv => setA acc kv.1 kv.2) []

/-- `buildPushErrorResults` (daemon/src/index.ts lines 48-52); `dst` is
always a string in the model, so the source's `dst ?? ''` defaulting is
the identity. -/
def buildPushErrorResults (updates : List PushUpdateRow) (message : String) :
    List (String × PushResultEntry) :=
  fromEntries (updates.map (fun u => (u.dst, ⟨"error", some message⟩)))

/-! ## `persistPush` (spec-modelled)

Modelled from the spec: `persistPush` lives in the daemon's `queries.ts`,
which is not among the provided sources (only its call site in
`daemon/src/index.ts` is).  Spec §4.2: "for each PushUpdate, read the
current Ref row for `(org, repo, dst)`.  If absent, accept unconditionally
(create).  If present and `force=false`, verify the new target descends
from the current target …; reject with `status: "error"` and a
non-fast-forward message if not.  If present and `force=true`, accept
unconditionally", with a per-reference `{status, message?}` result map.
The refs of one `(org, repo)` are an association list `name ↦ target_oid`
and descent in the stored object graph is an abstract `descends new cur`
predicate. -/

def applyPushUpdate (descends : String → String → Bool)
    (refs : List (String × String)) (u : PushUpdateRow) :
    List (String × String) × (String × PushResultEntry) :=
  match lookupA refs u.dst with
  | none => (setA refs u.dst u.src, (u.dst, ⟨"ok", none⟩))
  | some cur =>
      if u.force then (setA refs u.dst u.src, (u.dst, ⟨"ok", none⟩))
      else if descends u.src cur then (setA refs u.dst u.src, (u.dst, ⟨"ok", none⟩))
      else (refs, (u.dst, ⟨"error", some "non-fast-forward"⟩))

def persistPushSteps (descends : String → String → Bool)
    (refs : List (String × String)) :
    List PushUpdateRow → List (String × String) × List (String × PushResultEntry)
  | [] => (refs, [])
  | u :: rest =>
      let step := applyPushUpdate descends refs u
      let tail := persistPushSteps descends step.1 rest
      (tail.1, step.2 :: tail.2)

structure PersistPushResult where
  ok : Bool
  results : List (String × PushResultEntry)
  message : Option String

def persistPushModel (descends : String → String → Bool)
    (refs : List (String × String)) (updates : List PushUpdateRow) :
    List (String × String) × PersistPushResult :=
  let steps := persistPushSteps descends refs updates
  (steps.1, ⟨steps.2.all (fun r => r.2.status == "ok"), fromEntries steps.2, none⟩)

/-- `pushPack` (daemon/src/index.ts lines 522-552): delegates to
`persistPush` and, when it throws, answers `ok: false` with an
error-per-ref result map built by `buildPushErrorResults`.
`persistThrow` is the caught exception's message, if one was thrown. -/
def pushPackHandler (descends : String → String → Bool)
    (refs : List (String × String)) (updates : List PushUpdateRow)
    (persistThrow : Option String) : PersistPushResult :=
  match persistThrow with
  | some m => ⟨false, buildPushErrorResults updates m, some m⟩
  | none => (persistPushModel descends refs updates).2

/-! ## Push payload parsing and the `/git/push` route (server.ts)

A push request body is either plain JSON (`.json none` when the body was
missing or unparseable — `readJsonBody` swallows parse errors) or
multipart.  For multipart, `metadataError` records that the `metadata`
field failed `JSON.parse` (or the pack file stream errored), which makes
`parsePushPayload` reject and the route answer 500 via its `catch`. -/

structure DaemonPushRequest where
  updates : List PushUpdateRow
  packBase64 : Option String
  packEncoding : Option String
  packOid : Option String
  summary : Option JsValue
  dryRun : Bool

inductive PushBody where
  | json (body : Option JsValue)
  | multipart (metadataError : Bool) (metadata : Option JsValue)
      (packChunks : List (List Nat))

def normalizePushPayload (raw : Option JsValue) (packFromStream : Option String) :
    DaemonPushRequest :=
  let rawv := raw.getD .undefined
  let updates := parseUpdates (rawv.getField "updates")
  let packBase64 :=
    match packFromStream with
    | some p => some p
    | none => (rawv.getField "pack").asStringOpt
  let packEncoding := (rawv.getField "packEncoding").asStringOpt
  let rawOptions :=
    if !(rawv.getField "options").isFalsy ∧ (rawv.getField "options").isObjectType
    then some (rawv.getField "options") else none
  let packOidOption := (rawOptions.getD .undefined).getField "packOid" |>.asStringOpt
  let packOid :=
    match (rawv.getField "packOid").asStringOpt with
    | some p => some p
    | none => packOidOption
  let summaryCandidate :=
    match rawv.getField "summary" with
    | .undefined => (rawOptions.getD .undefined).getField "summary"
    | v => v
  let summary :=
    if !summaryCandidate.isFalsy ∧ summaryCandidate.isObjectType
    then some summaryCandidate else none
  let dryRun :=
    (match rawv.getField "dryRun" with | .boolean true => true | _ => false) ||
    (match (rawOptions.getD .undefined).getField "dryRun" with
     | .boolean true => true | _ => false)
  ⟨updates, packBase64, packEncoding, packOid, summary, dryRun⟩

def parsePushPayload (body : PushBody) : Except Unit DaemonPushRequest :=
  match body with
  | .multipart metadataError metadata chunks =>
      if metadataError then .error ()
      else
        let packBase64 :=
          if chunks.length > 0
          then some (String.mk (b64EncodeList chunks.flatten)) else none
        .ok (normalizePushPayload metadata packBase64)
  | .json b => .ok (normalizePushPayload b none)

structure PushRouteOutcome where
  status : Nat
  persistCalled : Bool
  payload : Option DaemonPushRequest
  response : Option PersistPushResult

def pushRoute (body : PushBody) (descends : String → String → Bool)
    (refs : List (String × String)) (persistThrow : Option String) :
    PushRouteOutcome :=
  match parsePushPayload body with
  | .error _ => ⟨500, false, none, none⟩
  | .ok payload =>
      if payload.updates.length = 0 then ⟨400, false, none, none⟩
      else
        ⟨200, true, some payload,
          some (pushPackHandler descends refs payload.updates persistThrow)⟩

/-! ## `PowerSyncFs` path normalization (git-store-config.ts lines 214-232)

The source pipeline is: replace `\` by `/`, collapse runs of `/`, `trim()`,
prefix a `/` when missing, split on `/`, drop empty and `.` segments, let
`..` pop the previous segment, and re-join with a leading `/`. -/

abbrev Seg := List Char

def mapBackslash (cs : Chars) : Chars :=
  cs.map (fun c => if c = '\\' then '/' else c)

def collapseSlashes : Chars → Chars
  | [] => []
  | [c] => [c]
  | c :: d :: rest =>
      if c = '/' ∧ d = '/' then collapseSlashes (d :: rest)
      else c :: collapseSlashes (d :: rest)

def splitSl : Chars → List Seg
  | [] => [[]]
  | c :: rest =>
      match splitSl rest with
      | [] => [[]]
      | g :: gs => if c = '/' then [] :: g :: gs else (c :: g) :: gs

def resolveDots (segs : List Seg) : List Seg :=
  segs.foldl
    (fun acc seg =>
      if seg = [] ∨ seg = ['.'] then acc
      else if seg = ['.', '.'] then acc.dropLast
      else acc ++ [seg])
    []

def normalizeSegs (cs : Chars) : List Seg :=
  if cs = [] then []
  else
    let normalized := jsTrim (collapseSlashes (mapBackslash cs))
    if normalized = [] then []
    else
      let withSlash := if normalized.head? = some '/' then normalized
        else '/' :: normalized
      resolveDots (splitSl withSlash)

def joinSegs : List Seg → Chars
  | [] => []
  | [s] => s
  | s :: rest => s ++ '/' :: joinSegs rest

def normChars (cs : Chars) : Chars := '/' :: joinSegs (normalizeSegs cs)

def normalize (p : String) : String := String.mk (normChars p.data)

/-! ## `PowerSyncFs` tree and operations

Nodes mirror `DirectoryNode | FileNode`; directory entry maps are
association lists with `Map` semantics.  Every operation takes the state,
the raw path and `now` (for `Date.now()`), and returns the result paired
with the state at the moment the operation returned or threw — errors
thrown part-way keep whatever mutations had already happened, exactly as
in the in-place TypeScript code. -/

inductive FsNode where
  | dir (entries : List (Seg × FsNode)) (mode : Nat) (mtimeMs : Nat)
  | file (data : Option (List Nat)) (mode : Nat) (mtimeMs : Nat)
      (size : Nat) (external : Bool)

structure PackEntry where
  data : List Nat
  mtimeMs : Nat
deriving DecidableEq

structure FsState where
  root : FsNode
  packStore : Option (List (String × PackEntry))

structure FsError where
  message : String
  code : String
deriving DecidableEq

/-- `PackFileStore.handles` (pack-file-store.ts): `path.endsWith('.pack')`. -/
def packHandles (norm : Chars) : Bool :=
  List.isSuffixOf ".pack".data norm

/-- `traverse`: walk already-normalized segments from the root, failing on
missing entries or when a file occurs mid-path. -/
def findNode : FsNode → List Seg → Option FsNode
  | n, [] => some n
  | .dir es _ _, s :: rest =>
      match lookupA es s with
      | some child => findNode child rest
      | none => none
  | .file _ _ _ _ _, _ :: _ => none

/-- Replace the node at a path (used for the in-place mutations of the
source: the caller has already located the node being replaced). -/
def setNodeAt : FsNode → List Seg → FsNode → FsNode
  | _, [], newNode => newNode
  | .dir es m t, s :: rest, newNode =>
      match lookupA es s with
      | some child => .dir (setA es s (setNodeAt child rest newNode)) m t
      | none => .dir es m t
  | n, _ :: _, _ => n

/-- `getParent` (git-store-config.ts lines 234-247).  The source calls
`this.normalize(path)` on its (usually already normalized) argument and
splits that, then resolves the parent via `traverse`, which normalizes the
re-joined parent path once more — both renormalizations are reproduced
here. -/
def getParent (root : FsNode) (pathArg : Chars) :
    Except FsError (List Seg × Seg × List (Seg × FsNode) × Nat × Nat) :=
  let parts := normalizeSegs (normChars pathArg)
  match parts.getLast? with
  | none => .error ⟨"Invalid path", "EEXIST"⟩
  | some name =>
      let psegs := normalizeSegs ('/' :: joinSegs parts.dropLast)
      match findNode root psegs with
      | some (.dir es m t) => .ok (psegs, name, es, m, t)
      | _ =>
          .error ⟨String.mk ("Not a directory: ".data ++ '/' ::
            joinSegs parts.dropLast), "ENOTDIR"⟩

def enoent (verb : String) (raw : String) : FsError :=
  ⟨s!"ENOENT: no such file or directory, {verb} '{raw}'", "ENOENT"⟩

/-- `PackFileStore.createError`: the store's own `ENOENT` error. -/
def storeEnoent (key : String) : FsError :=
  ⟨s!"ENOENT: no such file or directory, open '{key}'", "ENOENT"⟩

/-- `readFile` with default options (no encoding argument: the source's
encoding branches only re-interpret the same returned bytes).  An external
file refreshes its recorded `size` from the pack store. -/
def readFile (st : FsState) (p : String) : Except FsError (List Nat) × FsState :=
  let norm := normChars p.data
  match findNode st.root (normalizeSegs norm) with
  | none => (.error (enoent "read" p), st)
  | some (.dir _ _ _) =>
      (.error ⟨"EISDIR: illegal operation on a directory, read", "EISDIR"⟩, st)
  | some (.file data mode mtime _ ext) =>
      if ext then
        match st.packStore with
        | none => (.error (enoent "read" p), st)
        | some ps =>
            match lookupA ps (String.mk norm) with
            | none => (.error (storeEnoent (String.mk norm)), st)
            | some entry =>
                let node := FsNode.file data mode mtime entry.data.length ext
                let root' := setNodeAt st.root (normalizeSegs norm) node
                (.ok entry.data, { st with root := root' })
      else
        match data with
        | none => (.error (enoent "read" p), st)
        | some bytes => (.ok bytes, st)

/-- `writeFile` for byte payloads (the `Uint8Array` branch; `mode` is the
`options?.mode ?? 0o666` default). -/
def writeFile (st : FsState) (p : String) (bytes : List Nat)
    (mode : Option Nat) (now : Nat) : Except FsError Unit × FsState :=
  let norm := normChars p.data
  match getParent st.root norm with
  | .error e => (.error e, st)
  | .ok (psegs, name, es, m, _) =>
      match st.packStore with
      | some ps =>
          if packHandles norm then
            let node := FsNode.file none (mode.getD 438) now bytes.length true
            let root' := setNodeAt st.root psegs (.dir (setA es name node) m now)
            let store' := setA ps (String.mk norm) (⟨bytes, now⟩ : PackEntry)
            (.ok (), { root := root', packStore := some store' })
          else
            let node := FsNode.file (some bytes) (mode.getD 438) now bytes.length false
            let root' := setNodeAt st.root psegs (.dir (setA es name node) m now)
            (.ok (), { st with root := root' })
      | none =>
          let node := FsNode.file (some bytes) (mode.getD 438) now bytes.length false
          let root' := setNodeAt st.root psegs (.dir (setA es name node) m now)
          (.ok (), { st with root := root' })

def unlink (st : FsState) (p : String) (now : Nat) :
    Except FsError Unit × FsState :=
  let norm := normChars p.data
  match getParent st.root norm with
  | .error e => (.error e, st)
  | .ok (psegs, name, es, m, _) =>
      match lookupA es name with
      | none => (.error (enoent "unlink" p), st)
      | some (.dir _ _ _) =>
          (.error ⟨"EISDIR: illegal operation on a directory", "EISDIR"⟩, st)
      | some (.file _ _ _ _ ext) =>
          let store' :=
            match st.packStore with
            | some ps => if ext then some (delA ps (String.mk norm)) else some ps
            | none => none
          let root' := setNodeAt st.root psegs (.dir (delA es name) m now)
          (.ok (), { root := root', packStore := store' })

def readdir (st : FsState) (p : String) :
    Except FsError (List Seg) × FsState :=
  match findNode st.root (normalizeSegs p.data) with
  | none => (.error (enoent "scandir" p), st)
  | some (.file _ _ _ _ _) =>
      (.error ⟨"ENOTDIR: not a directory", "ENOTDIR"⟩, st)
  | some (.dir es _ _) => (.ok (es.map Prod.fst), st)

/-- The creation walk of `mkdir`: directories created before an `ENOTDIR`
is thrown stay created (in-place mutation in the source). -/
def mkdirNode (node : FsNode) (parts : List Seg) (mode : Nat) (now : Nat) :
    Option FsError × FsNode :=
  match parts with
  | [] => (none, node)
  | s :: rest =>
      match node with
      | .dir es m t =>
          match lookupA es s with
          | none =>
              let sub := mkdirNode (.dir [] mode now) rest mode now
              (sub.1, .dir (setA es s sub.2) m t)
          | some (.dir es' m' t') =>
              let sub := mkdirNode (.dir es' m' t') rest mode now
              (sub.1, .dir (setA es s sub.2) m t)
          | some (.file _ _ _ _ _) =>
              (some ⟨"ENOTDIR: not a directory", "ENOTDIR"⟩, node)
      | n => (some ⟨"ENOTDIR: not a directory", "ENOTDIR"⟩, n)

def mkdir (st : FsState) (p : String) (mode : Option Nat) (now : Nat) :
    Except FsError Unit × FsState :=
  let parts := normalizeSegs (normChars p.data)
  match parts with
  | [] => (.ok (), st)
  | _ =>
      let walk := mkdirNode st.root parts (mode.getD 511) now
      match walk.1 with
      | some e => (.error e, { st with root := walk.2 })
      | none => (.ok (), { st with root := walk.2 })

def rmdir (st : FsState) (p : String) (now : Nat) :
    Except FsError Unit × FsState :=
  let norm := normChars p.data
  match getParent st.root norm with
  | .error e => (.error e, st)
  | .ok (psegs, name, es, m, _) =>
      match lookupA es name with
      | none => (.error (enoent "rmdir" p), st)
      | some (.file _ _ _ _ _) =>
          (.error ⟨"ENOTDIR: not a directory", "ENOTDIR"⟩, st)
      | some (.dir es' _ _) =>
          if es'.length > 0 then
            (.error ⟨"ENOTEMPTY: directory not empty", "ENOTEMPTY"⟩, st)
          else
            let root' := setNodeAt st.root psegs (.dir (delA es name) m now)
            (.ok (), { st with root := root' })

/-- `rename` (git-store-config.ts lines 420-440).  All validation happens
before any mutation; for an external file the pack-store entry is moved
(`PackFileStore.move`: set the new key to the same data with a fresh
mtime, then delete the old key, throwing `ENOENT` when the old key is
absent).  The tree mutation re-reads the destination parent from the tree
that already had the source entry deleted, which matches the source's
in-place mutation of live nodes (a destination parent detached by the
deletion is unreachable, so mutating it is unobservable). -/
def rename (st : FsState) (oldP newP : String) (now : Nat) :
    Except FsError Unit × FsState :=
  let normOld := normChars oldP.data
  let normNew := normChars newP.data
  match getParent st.root normOld with
  | .error e => (.error e, st)
  | .ok (opsegs, oname, oes, om, _) =>
      match lookupA oes oname with
      | none => (.error (enoent "rename" oldP), st)
      | some node =>
          match getParent st.root normNew with
          | .error e => (.error e, st)
          | .ok (npsegs, nname, nes, _, _) =>
              match lookupA nes nname with
              | some _ => (.error ⟨"EEXIST: file already exists", "EEXIST"⟩, st)
              | none =>
                  let moveRes : Except FsError
                      (Option (List (String × PackEntry))) :=
                    match node, st.packStore with
                    | .file _ _ _ _ true, some ps =>
                        match lookupA ps (String.mk normOld) with
                        | none => .error (storeEnoent (String.mk normOld))
                        | some entry =>
                            .ok (some (delA
                              (setA ps (String.mk normNew) ⟨entry.data, now⟩)
                              (String.mk normOld)))
                    | _, _ => .ok st.packStore
                  match moveRes with
                  | .error e => (.error e, st)
                  | .ok ps' =>
                      let root1 := setNodeAt st.root opsegs
                        (.dir (delA oes oname) om now)
                      match findNode root1 npsegs with
                      | some (.dir nes1 nm1 _) =>
                          let root2 := setNodeAt root1 npsegs (.dir (setA nes1 nname node) nm1 now)
                          (.ok (), { root := root2, packStore := ps' })
                      | _ => (.ok (), { root := root1, packStore := ps' })

/-- `stat`: for an external file the size/mtime metadata is refreshed from
the pack store when the store has the entry (a store `ENOENT` is caught
and the stale metadata kept).  Returns the node backing the `FsStat`
view. -/
def stat (st : FsState) (p : String) : Except FsError FsNode × FsState :=
  let norm := normChars p.data
  match findNode st.root (normalizeSegs norm) with
  | none => (.error (enoent "stat" p), st)
  | some (.dir es m t) => (.ok (.dir es m t), st)
  | some (.file data mode mtime size ext) =>
      match st.packStore with
      | some ps =>
          if ext then
            match lookupA ps (String.mk norm) with
            | some entry =>
                let node := FsNode.file data mode entry.mtimeMs entry.data.length ext
                let root' := setNodeAt st.root (normalizeSegs norm) node
                (.ok node, { st with root := root' })
            | none => (.ok (.file data mode mtime size ext), st)
          else (.ok (.file data mode mtime size ext), st)
      | none => (.ok (.file data mode mtime size ext), st)

/-- `rm` (git-store-config.ts lines 480-497).  The recursion of the source
walks directory children; `fuel` bounds that recursion (any fuel at least
the tree depth plus one behaves identically to the source). -/
def rm (fuel : Nat) (st : FsState) (p : String) (recursive : Bool)
    (now : Nat) : Except FsError Unit × FsState :=
  match fuel with
  | 0 => (.error ⟨"recursion budget exhausted", "EFUEL"⟩, st)
  | fuel' + 1 =>
      match findNode st.root (normalizeSegs p.data) with
      | none =>
          if recursive then (.ok (), st)
          else (.error (enoent "rm" p), st)
      | some (.file _ _ _ _ _) => unlink st p now
      | some (.dir es _ _) =>
          if !recursive ∧ es.length > 0 then
            (.error ⟨"ENOTEMPTY: directory not empty", "ENOTEMPTY"⟩, st)
          else
            let children := es.map
              (fun kv => String.mk (normChars p.data ++ '/' :: kv.1))
            let folded := children.foldl
              (fun (acc : Except FsError Unit × FsState) child =>
                match acc.1 with
                | .error _ => acc
                | .ok _ => rm fuel' acc.2 child recursive now)
              (.ok (), st)
            match folded.1 with
            | .error e => (.error e, folded.2)
            | .ok _ => rmdir folded.2 p now

/-! ## `PackFileStore` aliasing model (pack-file-store.ts)

JavaScript `Uint8Array`s are mutable heap objects, so buffer isolation is
about aliasing: here the heap is a list of cells (a cell id is its index,
allocation appends), the store maps keys to the private cell id holding
the entry's `data`, and the caller's reachable buffers are the `exposed`
ids.  `write` copies the caller's buffer into a fresh cell
(`data.slice()` in the source), `read` hands the caller a fresh copy of
the stored cell (`entry.data.slice()`), and `mutate` is the caller
writing through one of its own buffers — the only mutation a caller can
perform. -/

structure PFState where
  heap : List (List Nat)
  exposed : List Nat
  store : List (String × Nat × Nat)

inductive PFOp where
  | write (k : String) (j : Nat) (now : Nat)
  | read (k : String)
  | mutate (j : Nat) (i : Nat) (v : Nat)

def heapGet (h : List (List Nat)) (c : Nat) : List Nat := h.getD c []

def pfStep (s : PFState) (op : PFOp) : PFState :=
  match op with
  | .write k j now =>
      match s.exposed[j]? with
      | none => s
      | some cid =>
          { heap := s.heap ++ [heapGet s.heap cid],
            exposed := s.exposed,
            store := setA s.store k (s.heap.length, now) }
  | .read k =>
      match lookupA s.store k with
      | none => s
      | some ct =>
          { heap := s.heap ++ [heapGet s.heap ct.1],
            exposed := s.exposed ++ [s.heap.length],
            store := s.store }
  | .mutate j i v =>
      match s.exposed[j]? with
      | none => s
      | some cid =>
          { s with heap := s.heap.set cid ((heapGet s.heap cid).set i v) }

def pfRun (s : PFState) (ops : List PFOp) : PFState := ops.foldl pfStep s

/-- The bytes currently stored under a key. -/
def storeBytes (s : PFState) (k : String) : Option (List Nat) :=
  (lookupA s.store k).map (fun ct => heapGet s.heap ct.1)

/-- `op` is a `write` to key `k`. -/
def writesKey (op : PFOp) (k : String) : Bool :=
  match op with
  | .write k' _ _ => k' = k
  | _ => false

/-- Store cells are live and private: never aliased by a caller buffer. -/
def PFInv (s : PFState) : Prop :=
  (∀ e ∈ s.exposed, e < s.heap.length) ∧
  (∀ k c t, lookupA s.store k = some (c, t) → c < s.heap.length ∧ c ∉ s.exposed)

/-! ## Helper projections for stating the filesystem claims -/

def errCode {α : Type} : Except FsError α → Option String
  | .error e => some e.code
  | .ok _ => none

/-- Whether an optional node is a directory (the shape `getParent`
requires of a parent). -/
def isDirOpt : Option FsNode → Bool
  | some (.dir _ _ _) => true
  | _ => false

/-- Outcome equivalence up to error-message text: same resulting state,
same success value, same error code.  Error messages embed the raw path
spelling, so two spellings of one path agree only up to the message. -/
def sameFsOutcome {α : Type} (r1 r2 : Except FsError α × FsState) : Prop :=
  r1.2 = r2.2 ∧
    match r1.1, r2.1 with
    | .ok a, .ok b => a = b
    | .error e1, .error e2 => e1.code = e2.code
    | _, _ => False

/-! ## Supporting lemmas -/

theorem lookupA_setA_self {κ : Type} [DecidableEq κ] {α : Type}
    (l : List (κ × α)) (k : κ) (v : α) : lookupA (setA l k v) k = some v := by
  induction l with
  | nil => simp [setA, lookupA]
  | cons hd tl ih =>
      obtain ⟨k', v'⟩ := hd
      by_cases h : k' = k
      · simp [setA, h, lookupA]
      · simp [setA, h, lookupA, ih]

theorem lookupA_setA_ne {κ : Type} [DecidableEq κ] {α : Type}
    (l : List (κ × α)) (k k' : κ) (v : α) (h : k ≠ k') :
    lookupA (setA l k v) k' = lookupA l k' := by
  induction l with
  | nil => simp [setA, lookupA, h]
  | cons hd tl ih =>
      obtain ⟨k0, v0⟩ := hd
      by_cases h0 : k0 = k
      · subst h0
        simp [setA, lookupA, h]
      · simp [setA, h0, lookupA, ih]

theorem lookupA_eq_none_of_not_mem {κ : Type} [DecidableEq κ] {α : Type}
    (l : List (κ × α)) (k : κ) (h : k ∉ l.map Prod.fst) :
    lookupA l k = none := by
  induction l with
  | nil => rfl
  | cons hd tl ih =>
      obtain ⟨k0, v0⟩ := hd
      simp only [List.map_cons, List.mem_cons, not_or] at h
      have hne : ¬k0 = k := fun hc => h.1 hc.symm
      simp [lookupA, hne, ih h.2]

theorem lookupA_delA_self {κ : Type} [DecidableEq κ] {α : Type}
    (l : List (κ × α)) (k : κ)
    (huniq : (l.map Prod.fst).Nodup) :
    lookupA (delA l k) k = none := by
  induction l with
  | nil => simp [delA, lookupA]
  | cons hd tl ih =>
      obtain ⟨k0, v0⟩ := hd
      simp only [List.map_cons, List.nodup_cons] at huniq
      by_cases h0 : k0 = k
      · subst h0
        simp only [delA, if_pos rfl]
        exact lookupA_eq_none_of_not_mem tl k0 huniq.1
      · simp [delA, h0, lookupA, ih huniq.2]

theorem lookupA_delA_ne {κ : Type} [DecidableEq κ] {α : Type}
    (l : List (κ × α)) (k k' : κ) (h : k ≠ k') :
    lookupA (delA l k) k' = lookupA l k' := by
  induction l with
  | nil => simp [delA]
  | cons hd tl ih =>
      obtain ⟨k0, v0⟩ := hd
      by_cases h0 : k0 = k
      · subst h0
        simp [delA, lookupA, fun hc : k0 = k' => h hc]
      · simp [delA, h0, lookupA, ih]

theorem dropWhile_eq_self_of_all {p : Char → Bool} (cs : Chars)
    (h : ∀ c ∈ cs, p c = false) : cs.dropWhile p = cs := by
  cases cs with
  | nil => rfl
  | cons c rest => simp [List.dropWhile, h c (by simp)]

theorem jsTrim_eq_self_of_all (cs : Chars) (h : ∀ c ∈ cs, isJsWs c = false) :
    jsTrim cs = cs := by
  unfold jsTrim
  rw [dropWhile_eq_self_of_all cs h,
      dropWhile_eq_self_of_all cs.reverse (fun c hc => h c (List.mem_reverse.mp hc)),
      List.reverse_reverse]

theorem b64_index_char : ∀ n ∈ List.range 64, b64Index (b64Char n) = n := by decide

theorem b64_char_ne_pad : ∀ n ∈ List.range 64, b64Char n ≠ '=' := by decide

theorem b64_char_is_b64 : ∀ n ∈ List.range 64, isB64Char (b64Char n) = true := by decide

theorem b64_char_not_ws : ∀ n ∈ List.range 64, isJsWs (b64Char n) = false := by decide

theorem b64_char_ne_backslash : ∀ n ∈ List.range 64, b64Char n ≠ '\\' := by decide

theorem b64_index_char_lt (n : Nat) (h : n < 64) : b64Index (b64Char n) = n :=
  b64_index_char n (List.mem_range.mpr h)

theorem b64_char_ne_pad_lt (n : Nat) (h : n < 64) : b64Char n ≠ '=' :=
  b64_char_ne_pad n (List.mem_range.mpr h)

theorem b64_roundtrip_aux (fuel : Nat) :
    ∀ bs : List Nat, bs.length ≤ fuel → (∀ x ∈ bs, x < 256) →
      b64DecodeList (b64EncodeList bs) = bs := by
  induction fuel with
  | zero =>
      intro bs hlen _
      have : bs = [] := List.eq_nil_of_length_eq_zero (Nat.le_zero.mp hlen)
      subst this
      simp [b64EncodeList, b64DecodeList]
  | succ n ih =>
      intro bs hlen hbound
      match bs with
      | [] => simp [b64EncodeList, b64DecodeList]
      | [a] =>
          have ha : a < 256 := hbound a (by simp)
          have h1 : a / 4 < 64 := by omega
          have h2 : a % 4 * 16 < 64 := by omega
          simp only [b64EncodeList, b64DecodeList, if_pos rfl, if_true,
            b64_index_char_lt _ h1, b64_index_char_lt _ h2, List.cons.injEq, and_true]
          omega
      | [a, b] =>
          have ha : a < 256 := hbound a (by simp)
          have hb : b < 256 := hbound b (by simp)
          have h1 : a / 4 < 64 := by omega
          have h2 : a % 4 * 16 + b / 16 < 64 := by omega
          have h3 : b % 16 * 4 < 64 := by omega
          simp only [b64EncodeList, b64DecodeList,
            if_neg (b64_char_ne_pad_lt _ h3), if_pos rfl, if_true,
            b64_index_char_lt _ h1, b64_index_char_lt _ h2, b64_index_char_lt _ h3,
            List.cons.injEq, and_true]
          omega
      | a :: b :: c :: rest =>
          have ha : a < 256 := hbound a (by simp)
          have hb : b < 256 := hbound b (by simp)
          have hc : c < 256 := hbound c (by simp)
          have h1 : a / 4 < 64 := by omega
          have h2 : a % 4 * 16 + b / 16 < 64 := by omega
          have h3 : b % 16 * 4 + c / 64 < 64 := by omega
          have h4 : c % 64 < 64 := by omega
          have hlen' : rest.length ≤ n := by
            simp only [List.length_cons] at hlen
            omega
          have hrest : b64DecodeList (b64EncodeList rest) = rest :=
            ih rest hlen' (fun x hx => hbound x (by simp [hx]))
          simp only [b64EncodeList, b64DecodeList,
            if_neg (b64_char_ne_pad_lt _ h3), if_neg (b64_char_ne_pad_lt _ h4),
            b64_index_char_lt _ h1, b64_index_char_lt _ h2, b64_index_char_lt _ h3,
            b64_index_char_lt _ h4, hrest, List.cons.injEq, and_true]
          omega

theorem b64_roundtrip (bs : List Nat) (hbound : ∀ x ∈ bs, x < 256) :
    b64DecodeList (b64EncodeList bs) = bs :=
  b64_roundtrip_aux bs.length bs (Nat.le_refl _) hbound

theorem b64_char_is_b64_lt (n : Nat) (h : n < 64) : isB64Char (b64Char n) = true :=
  b64_char_is_b64 n (List.mem_range.mpr h)

theorem alphabet_not_ws : ∀ c ∈ b64Alphabet, isJsWs c = false := by decide

theorem pad_not_ws : isJsWs '=' = false := by decide

theorem pad_not_b64 : isB64Char '=' = false := by decide

theorem isB64Char_mem (c : Char) (h : isB64Char c = true) : c ∈ b64Alphabet := by
  simpa [isB64Char, List.contains] using h

theorem takeWhile_append_of_all {p : Char → Bool} (xs ys : Chars)
    (h : ∀ c ∈ xs, p c = true) :
    (xs ++ ys).takeWhile p = xs ++ ys.takeWhile p := by
  induction xs with
  | nil => simp
  | cons c rest ih =>
      simp only [List.cons_append, List.takeWhile_cons, h c (by simp), if_true,
        List.cons.injEq, true_and]
      exact ih (fun d hd => h d (by simp [hd]))

theorem takeWhile_replicate_pad {p : Char → Bool} (n : Nat) (h : p '=' = false) :
    (List.replicate n '=').takeWhile p = [] := by
  cases n <;> simp [List.takeWhile, h, List.replicate]

/-- Structure of the base64 encoding: a run of alphabet characters
followed by at most two `=`, of total length divisible by 4. -/
theorem b64_encode_shape_aux (fuel : Nat) :
    ∀ bs : List Nat, bs.length ≤ fuel → (∀ x ∈ bs, x < 256) →
      ∃ body npad, b64EncodeList bs = body ++ List.replicate npad '=' ∧
        (∀ c ∈ body, isB64Char c = true) ∧ npad ≤ 2 ∧
        (bs ≠ [] → 1 ≤ body.length) ∧ (body.length + npad) % 4 = 0 := by
  induction fuel with
  | zero =>
      intro bs hlen _
      have : bs = [] := List.eq_nil_of_length_eq_zero (Nat.le_zero.mp hlen)
      subst this
      exact ⟨[], 0, by simp [b64EncodeList], by simp, by omega, by simp, by simp⟩
  | succ n ih =>
      intro bs hlen hbound
      match bs with
      | [] =>
          exact ⟨[], 0, by simp [b64EncodeList], by simp, by omega, by simp, by simp⟩
      | [a] =>
          have ha : a < 256 := hbound a (by simp)
          refine ⟨[b64Char (a / 4), b64Char (a % 4 * 16)], 2, ?_, ?_, by omega,
            fun _ => by simp, by simp⟩
          · simp [b64EncodeList, List.replicate]
          · intro c hc
            rcases List.mem_pair.mp hc with h | h <;> subst h
            · exact b64_char_is_b64_lt _ (by omega)
            · exact b64_char_is_b64_lt _ (by omega)
      | [a, b] =>
          have ha : a < 256 := hbound a (by simp)
          have hb : b < 256 := hbound b (by simp)
          refine ⟨[b64Char (a / 4), b64Char (a % 4 * 16 + b / 16),
            b64Char (b % 16 * 4)], 1, ?_, ?_, by omega, fun _ => by simp, by simp⟩
          · simp [b64EncodeList, List.replicate]
          · intro c hc
            simp only [List.mem_cons, List.not_mem_nil, or_false] at hc
            rcases hc with h | h | h <;> subst h
            · exact b64_char_is_b64_lt _ (by omega)
            · exact b64_char_is_b64_lt _ (by omega)
            · exact b64_char_is_b64_lt _ (by omega)
      | a :: b :: c :: rest =>
          have ha : a < 256 := hbound a (by simp)
          have hb : b < 256 := hbound b (by simp)
          have hc : c < 256 := hbound c (by simp)
          have hlen' : rest.length ≤ n := by
            simp only [List.length_cons] at hlen
            omega
          obtain ⟨body, npad, henc, hbody, hpad, _, hmod⟩ :=
            ih rest hlen' (fun x hx => hbound x (by simp [hx]))
          refine ⟨b64Char (a / 4) :: b64Char (a % 4 * 16 + b / 16) ::
            b64Char (b % 16 * 4 + c / 64) :: b64Char (c % 64) :: body, npad,
            ?_, ?_, hpad, fun _ => by simp, by simp; omega⟩
          · simp [b64EncodeList, henc]
          · intro d hd
            simp only [List.mem_cons] at hd
            rcases hd with h | h | h | h | h
            · exact h ▸ b64_char_is_b64_lt _ (by omega)
            · exact h ▸ b64_char_is_b64_lt _ (by omega)
            · exact h ▸ b64_char_is_b64_lt _ (by omega)
            · exact h ▸ b64_char_is_b64_lt _ (by omega)
            · exact hbody d h

theorem b64_encode_shape (bs : List Nat) (hbound : ∀ x ∈ bs, x < 256) :
    ∃ body npad, b64EncodeList bs = body ++ List.replicate npad '=' ∧
      (∀ c ∈ body, isB64Char c = true) ∧ npad ≤ 2 ∧
      (bs ≠ [] → 1 ≤ body.length) ∧ (body.length + npad) % 4 = 0 :=
  b64_encode_shape_aux bs.length bs (Nat.le_refl _) hbound

theorem b64_encode_not_ws (bs : List Nat) (hbound : ∀ x ∈ bs, x < 256) :
    ∀ c ∈ b64EncodeList bs, isJsWs c = false := by
  obtain ⟨body, npad, henc, hbody, _, _, _⟩ := b64_encode_shape bs hbound
  intro c hc
  rw [henc] at hc
  rcases List.mem_append.mp hc with h | h
  · exact alphabet_not_ws c (isB64Char_mem c (hbody c h))
  · rw [List.eq_of_mem_replicate h]
    exact pad_not_ws

theorem b64_encode_trim (bs : List Nat) (hbound : ∀ x ∈ bs, x < 256) :
    jsTrim (b64EncodeList bs) = b64EncodeList bs :=
  jsTrim_eq_self_of_all _ (b64_encode_not_ws bs hbound)

theorem isLikelyBase64_encode (bs : List Nat) (hne : bs ≠ [])
    (hbound : ∀ x ∈ bs, x < 256) :
    isLikelyBase64 (b64EncodeList bs) = true := by
  obtain ⟨body, npad, henc, hbody, hpad, hne1, hmod⟩ := b64_encode_shape bs hbound
  have hbodylen := hne1 hne
  have hlen : (b64EncodeList bs).length = body.length + npad := by
    simp [henc]
  have htake : (b64EncodeList bs).takeWhile isB64Char = body := by
    rw [henc, takeWhile_append_of_all body _ hbody,
      takeWhile_replicate_pad npad pad_not_b64, List.append_nil]
  unfold isLikelyBase64
  rw [if_neg]
  · unfold b64Regex
    simp only [htake]
    have hdrop : (b64EncodeList bs).drop body.length = List.replicate npad '=' := by
      rw [henc]
      exact List.drop_left body _
    rw [hdrop]
    simp only [Bool.and_eq_true, decide_eq_true_eq, List.all_eq_true]
    refine ⟨⟨hbodylen, ?_⟩, by simp [List.length_replicate]; omega⟩
    intro c hcm
    simp [List.eq_of_mem_replicate hcm]
  · push_neg
    constructor
    · omega
    · omega

theorem b64_encode_no_hex_prefix (bs : List Nat) (hne : bs ≠ [])
    (hbound : ∀ x ∈ bs, x < 256) :
    ['\\', 'x'].isPrefixOf (b64EncodeList bs) = false := by
  have hhead : ∃ a rest, bs = a :: rest ∧
      ∃ tl, b64EncodeList bs = b64Char (a / 4) :: tl := by
    match bs with
    | [] => exact absurd rfl hne
    | [a] => exact ⟨a, [], rfl, _, rfl⟩
    | [a, b] => exact ⟨a, [b], rfl, _, rfl⟩
    | a :: b :: c :: rest => exact ⟨a, b :: c :: rest, rfl, _, rfl⟩
  obtain ⟨a, rest, hbs, tl, henc⟩ := hhead
  have ha : a < 256 := hbound a (by simp [hbs])
  have hne' : b64Char (a / 4) ≠ '\\' :=
    b64_char_ne_backslash _ (List.mem_range.mpr (by omega))
  have hbeq : ('\\' == b64Char (a / 4)) = false :=
    beq_eq_false_iff_ne.mpr (fun h => hne' h.symm)
  rw [henc]
  simp [List.isPrefixOf, hbeq]

theorem lookupA_isSome_iff_mem {κ : Type} [DecidableEq κ] {α : Type}
    (l : List (κ × α)) (k : κ) :
    (∃ v, lookupA l k = some v) ↔ k ∈ l.map Prod.fst := by
  induction l with
  | nil => simp [lookupA]
  | cons hd tl ih =>
      obtain ⟨k0, v0⟩ := hd
      by_cases h0 : k0 = k
      · subst h0
        simp [lookupA]
      · simp only [lookupA, if_neg h0, List.map_cons, List.mem_cons, ih]
        constructor
        · exact fun h => Or.inr h
        · rintro (h | h)
          · exact absurd h.symm h0
          · exact h

theorem mem_setA {κ : Type} [DecidableEq κ] {α : Type}
    (l : List (κ × α)) (k : κ) (v : α) (q : κ × α) (h : q ∈ setA l k v) :
    q = (k, v) ∨ q ∈ l := by
  induction l with
  | nil => simpa [setA] using h
  | cons hd tl ih =>
      obtain ⟨k0, v0⟩ := hd
      by_cases h0 : k0 = k
      · subst h0
        simp only [setA, if_pos rfl, if_true, List.mem_cons] at h
        rcases h with h1 | h1
        · exact Or.inl h1
        · exact Or.inr (List.mem_cons_of_mem _ h1)
      · simp only [setA, if_neg h0, List.mem_cons] at h
        rcases h with h1 | h1
        · exact Or.inr (h1 ▸ List.mem_cons_self _ _)
        · rcases ih h1 with h2 | h2
          · exact Or.inl h2
          · exact Or.inr (List.mem_cons_of_mem _ h2)

theorem map_fst_setA_of_mem {κ : Type} [DecidableEq κ] {α : Type}
    (l : List (κ × α)) (k : κ) (v : α) (h : k ∈ l.map Prod.fst) :
    (setA l k v).map Prod.fst = l.map Prod.fst := by
  induction l with
  | nil => simp at h
  | cons hd tl ih =>
      obtain ⟨k0, v0⟩ := hd
      by_cases h0 : k0 = k
      · subst h0
        simp [setA]
      · simp only [List.map_cons, List.mem_cons] at h
        rcases h with h | h
        · exact absurd h.symm h0
        · simp [setA, h0, ih h]

theorem map_fst_setA_of_not_mem {κ : Type} [DecidableEq κ] {α : Type}
    (l : List (κ × α)) (k : κ) (v : α) (h : k ∉ l.map Prod.fst) :
    (setA l k v).map Prod.fst = l.map Prod.fst ++ [k] := by
  induction l with
  | nil => simp [setA]
  | cons hd tl ih =>
      obtain ⟨k0, v0⟩ := hd
      simp only [List.map_cons, List.mem_cons, not_or] at h
      have h0 : ¬k0 = k := fun hc => h.1 hc.symm
      simp [setA, h0, ih h.2]

theorem nodup_fst_setA {κ : Type} [DecidableEq κ] {α : Type}
    (l : List (κ × α)) (k : κ) (v : α) (h : (l.map Prod.fst).Nodup) :
    ((setA l k v).map Prod.fst).Nodup := by
  by_cases hm : k ∈ l.map Prod.fst
  · rwa [map_fst_setA_of_mem l k v hm]
  · rw [map_fst_setA_of_not_mem l k v hm]
    exact h.append (List.nodup_singleton k)
      (fun a ha hak => hm (by rwa [List.mem_singleton.mp hak] at ha))

theorem mem_fst_setA_iff {κ : Type} [DecidableEq κ] {α : Type}
    (l : List (κ × α)) (k k' : κ) (v : α) :
    k' ∈ (setA l k v).map Prod.fst ↔ k' ∈ l.map Prod.fst ∨ k' = k := by
  by_cases hm : k ∈ l.map Prod.fst
  · rw [map_fst_setA_of_mem l k v hm]
    constructor
    · exact fun h => Or.inl h
    · rintro (h | h)
      · exact h
      · exact h ▸ hm
  · rw [map_fst_setA_of_not_mem l k v hm]
    simp

theorem fromEntries_foldl_nodup {α : Type} (l : List (String × α))
    (acc : List (String × α)) (hacc : (acc.map Prod.fst).Nodup) :
    ((l.foldl (fun acc kv => setA acc kv.1 kv.2) acc).map Prod.fst).Nodup := by
  induction l generalizing acc with
  | nil => simpa [List.foldl]
  | cons hd tl ih =>
      exact ih (setA acc hd.1 hd.2) (nodup_fst_setA acc hd.1 hd.2 hacc)

theorem fromEntries_nodup {α : Type} (l : List (String × α)) :
    ((fromEntries l).map Prod.fst).Nodup :=
  fromEntries_foldl_nodup l [] (by simp)

theorem fromEntries_foldl_mem {α : Type} (l : List (String × α))
    (acc : List (String × α)) (k : String) :
    (k ∈ (l.foldl (fun acc kv => setA acc kv.1 kv.2) acc).map Prod.fst) ↔
      k ∈ acc.map Prod.fst ∨ k ∈ l.map Prod.fst := by
  induction l generalizing acc with
  | nil => simp [List.foldl]
  | cons hd tl ih =>
      simp only [List.foldl_cons, ih, mem_fst_setA_iff, List.map_cons,
        List.mem_cons]
      constructor
      · rintro ((h | h) | h)
        · exact Or.inl h
        · exact Or.inr (Or.inl h)
        · exact Or.inr (Or.inr h)
      · rintro (h | h | h)
        · exact Or.inl (Or.inl h)
        · exact Or.inl (Or.inr h)
        · exact Or.inr h

theorem fromEntries_mem {α : Type} (l : List (String × α)) (k : String) :
    k ∈ (fromEntries l).map Prod.fst ↔ k ∈ l.map Prod.fst := by
  simpa [fromEntries] using fromEntries_foldl_mem l [] k

theorem fromEntries_foldl_values {α : Type} (l : List (String × α))
    (acc : List (String × α)) (v : α)
    (hl : ∀ p ∈ l, p.2 = v) (hacc : ∀ q ∈ acc, q.2 = v) :
    ∀ q ∈ l.foldl (fun acc kv => setA acc kv.1 kv.2) acc, q.2 = v := by
  induction l generalizing acc with
  | nil => exact hacc
  | cons hd tl ih =>
      refine ih (setA acc hd.1 hd.2) (fun p hp => hl p (by simp [hp])) ?_
      intro q hq
      rcases mem_setA acc hd.1 hd.2 q hq with h | h
      · rw [h]
        exact hl hd (by simp)
      · exact hacc q h

theorem fromEntries_values {α : Type} (l : List (String × α)) (v : α)
    (hl : ∀ p ∈ l, p.2 = v) : ∀ q ∈ fromEntries l, q.2 = v :=
  fromEntries_foldl_values l [] v hl (by simp)

/-! ## Push pipeline lemmas -/

theorem parseUpdateEntries_dst_ne (entries : List JsValue) :
    ∀ u ∈ parseUpdateEntries entries, u.dst ≠ "" := by
  induction entries with
  | nil => simp [parseUpdateEntries]
  | cons e rest ih =>
      intro u hu
      unfold parseUpdateEntries at hu
      by_cases h1 : e.isFalsy || !e.isObjectType
      · rw [if_pos h1] at hu
        exact ih u hu
      · rw [if_neg h1] at hu
        by_cases h2 : (e.getField "dst").asStringOr "" = ""
        · rw [if_pos h2] at hu
          exact ih u hu
        · rw [if_neg h2] at hu
          rcases List.mem_cons.mp hu with h | h
          · rw [h]
            exact h2
          · exact ih u h

theorem parseUpdates_dst_ne (raw : JsValue) :
    ∀ u ∈ parseUpdates raw, u.dst ≠ "" := by
  cases raw <;>
    first
      | exact parseUpdateEntries_dst_ne _
      | simp [parseUpdates]

theorem applyPushUpdate_fst (descends : String → String → Bool)
    (refs : List (String × String)) (u : PushUpdateRow) :
    (applyPushUpdate descends refs u).2.1 = u.dst := by
  unfold applyPushUpdate
  cases lookupA refs u.dst with
  | none => rfl
  | some cur =>
      by_cases hf : u.force
      · simp [hf]
      · by_cases hd : descends u.src cur <;> simp [hf, hd]

theorem persistPushSteps_fst (descends : String → String → Bool)
    (updates : List PushUpdateRow) :
    ∀ refs, (persistPushSteps descends refs updates).2.map Prod.fst =
      updates.map (fun u => u.dst) := by
  induction updates with
  | nil => intro refs; rfl
  | cons u rest ih =>
      intro refs
      simp only [persistPushSteps, List.map_cons]
      rw [applyPushUpdate_fst, ih]

theorem normalizePackChars_encode (bs : List Nat) (hne : bs ≠ [])
    (hbound : ∀ x ∈ bs, x < 256) :
    normalizePackChars (b64EncodeList bs) =
      some ⟨String.mk (b64EncodeList bs), bs.length⟩ := by
  have htrim := b64_encode_trim bs hbound
  have hpre := b64_encode_no_hex_prefix bs hne hbound
  have hlik := isLikelyBase64_encode bs hne hbound
  have hrt := b64_roundtrip bs hbound
  have hlen0 : ¬(b64EncodeList bs).length = 0 := by
    intro hl
    obtain ⟨body, npad, hsh, _, _, hne1, _⟩ := b64_encode_shape bs hbound
    have h1 := hne1 hne
    have := congrArg List.length hsh
    rw [hl] at this
    simp at this
    omega
  have hbslen : ¬bs.length = 0 := fun hl => hne (List.eq_nil_of_length_eq_zero hl)
  unfold normalizePackChars
  rw [if_neg hlen0]
  simp only [htrim, hpre, Bool.false_eq_true, if_false, b64OrBinary, hlik,
    if_true, hrt, if_neg hbslen]

/-! ## Claim theorems -/

/-- C4: for every non-empty byte sequence `bs`, `normalizePackBytes`
applied to the base64 encoding of `bs` returns a non-null result whose
`size` equals `bs.length` and whose `base64` field decodes to exactly
`bs` — a pack stored in base64 text form is served back byte-identical. -/
theorem c4_normalizePackBytes_base64_roundtrip (bs : List Nat) (hne : bs ≠ [])
    (hbound : ∀ x ∈ bs, x < 256) :
    normalizePackBytes (.str (String.mk (b64EncodeList bs))) =
      some ⟨String.mk (b64EncodeList bs), bs.length⟩ ∧
    b64DecodeList (b64EncodeList bs) = bs :=
  ⟨normalizePackChars_encode bs hne hbound, b64_roundtrip bs hbound⟩

/-- Witness for C4 at the concrete byte `0x66` (`"f"`, whose base64
encoding is `"Zg=="`, the pack fixture used by the repository's tests). -/
theorem c4_normalizePackBytes_base64_roundtrip_check :
    normalizePackBytes (.str "Zg==") = some ⟨"Zg==", 1⟩ ∧
      b64DecodeList "Zg==".data = [102] := by
  have h := c4_normalizePackBytes_base64_roundtrip [102] (by decide) (by decide)
  have henc : String.mk (b64EncodeList [102]) = "Zg==" := by decide
  have hdata : "Zg==".data = b64EncodeList [102] := by decide
  refine ⟨?_, ?_⟩
  · rw [← henc]
    exact h.1
  · rw [hdata]
    exact h.2

/-- C2: the daemon's `fetchPack` handler returns `null` when the pack
lookup throws, when no pack row exists, or when the stored `pack_bytes`
value cannot be normalized, and the `/git/fetch` route answers 404 exactly
when the handler returned `null` and never with a 5xx status. -/
theorem c2_fetch_missing_or_invalid_pack :
    (∀ e : String, fetchPackHandler (.error e) = none) ∧
    fetchPackHandler (.ok none) = none ∧
    (∀ row : PackRow, normalizePackBytes row.pack_bytes = none →
      fetchPackHandler (.ok (some row)) = none) ∧
    (∀ r, (fetchRoute (fetchPackHandler r)).status = 404 ↔
      fetchPackHandler r = none) ∧
    (∀ r, (fetchRoute (fetchPackHandler r)).status = 200 ∨
      (fetchRoute (fetchPackHandler r)).status = 404) := by
  refine ⟨fun e => rfl, rfl, ?_, ?_, ?_⟩
  · intro row h
    simp [fetchPackHandler, h]
  · intro r
    cases hr : fetchPackHandler r <;> simp [fetchRoute]
  · intro r
    cases fetchPackHandler r <;> simp [fetchRoute]

/-- Witness for C2 at a concrete malformed row (`pack_bytes` is SQL
`NULL`, i.e. not a string): the handler returns `null` and the route
answers 404. -/
theorem c2_fetch_missing_or_invalid_pack_check :
    fetchPackHandler (.ok (some ⟨JsValue.nullv, none, none⟩)) = none ∧
    (fetchRoute (fetchPackHandler (.ok (some ⟨JsValue.nullv, none, none⟩)))).status
      = 404 := by
  have h := c2_fetch_missing_or_invalid_pack
  have h1 := h.2.2.1 ⟨JsValue.nullv, none, none⟩ rfl
  exact ⟨h1, (h.2.2.2.1 _).mpr h1⟩

/-- C1 (spec-modelled `persistPush`): for every push update processed
against the current refs, an absent ref is created unconditionally; an
existing ref without `force` is updated exactly when the new target
descends from the current one and otherwise rejected with a per-ref
error; with `force` the update is applied unconditionally — and in every
accepted case the ref's target becomes the pushed oid.  The last conjunct
ties the per-update rule into `persistPushModel`'s sequential
processing. -/
theorem c1_persistPush_fast_forward_rules
    (descends : String → String → Bool) (refs : List (String × String))
    (u : PushUpdateRow) :
    (lookupA refs u.dst = none →
      applyPushUpdate descends refs u =
        (setA refs u.dst u.src, (u.dst, ⟨"ok", none⟩))) ∧
    (∀ cur, lookupA refs u.dst = some cur → u.force = false →
      (descends u.src cur = true →
        applyPushUpdate descends refs u =
          (setA refs u.dst u.src, (u.dst, ⟨"ok", none⟩))) ∧
      (descends u.src cur = false →
        applyPushUpdate descends refs u =
          (refs, (u.dst, ⟨"error", some "non-fast-forward"⟩)))) ∧
    (∀ cur, lookupA refs u.dst = some cur → u.force = true →
      applyPushUpdate descends refs u =
        (setA refs u.dst u.src, (u.dst, ⟨"ok", none⟩))) ∧
    lookupA (setA refs u.dst u.src) u.dst = some u.src ∧
    (∀ rest, persistPushSteps descends refs (u :: rest) =
      ((persistPushSteps descends (applyPushUpdate descends refs u).1 rest).1,
       (applyPushUpdate descends refs u).2 ::
         (persistPushSteps descends (applyPushUpdate descends refs u).1 rest).2)) := by
  refine ⟨?_, ?_, ?_, lookupA_setA_self refs u.dst u.src, fun rest => rfl⟩
  · intro h
    simp [applyPushUpdate, h]
  · intro cur h hforce
    constructor
    · intro hd
      simp [applyPushUpdate, h, hforce, hd]
    · intro hd
      simp [applyPushUpdate, h, hforce, hd]
  · intro cur h hforce
    simp [applyPushUpdate, h, hforce]

/-- Witness for C1: concrete refs `main ↦ "A"`, a non-descending
non-force push of `"B"` is rejected, the same push with `force` is
applied. -/
theorem c1_persistPush_fast_forward_rules_check :
    applyPushUpdate (fun _ _ => false) [("main", "A")] ⟨"B", "main", false⟩ =
      ([("main", "A")], ("main", ⟨"error", some "non-fast-forward"⟩)) ∧
    applyPushUpdate (fun _ _ => false) [("main", "A")] ⟨"B", "main", true⟩ =
      ([("main", "B")], ("main", ⟨"ok", none⟩)) ∧
    applyPushUpdate (fun _ _ => false) [] ⟨"B", "main", false⟩ =
      ([("main", "B")], ("main", ⟨"ok", none⟩)) := by
  have h1 := (c1_persistPush_fast_forward_rules (fun _ _ => false)
    [("main", "A")] ⟨"B", "main", false⟩).2.1 "A" (by decide) rfl
  have h2 := (c1_persistPush_fast_forward_rules (fun _ _ => false)
    [("main", "A")] ⟨"B", "main", true⟩).2.2.1 "A" (by decide) rfl
  have h3 := (c1_persistPush_fast_forward_rules (fun _ _ => false)
    [] ⟨"B", "main", false⟩).1 (by decide)
  refine ⟨?_, ?_, ?_⟩
  · exact (h1.2 rfl).trans (by decide)
  · exact h2.trans (by decide)
  · exact h3.trans (by decide)

/-- C3: whenever the `/git/push` route reaches the push handler (parsed
updates non-empty), the response's results map has pairwise-distinct keys
that are exactly the requested updates' `dst` values — and when
`persistPush` threw, every entry carries status `"error"` with the thrown
message, so no requested ref is silently omitted. -/
theorem c3_push_results_enumerate_all_refs
    (body : PushBody) (descends : String → String → Bool)
    (refs : List (String × String)) (persistThrow : Option String)
    (payload : DaemonPushRequest) (resp : PersistPushResult)
    (hparse : parsePushPayload body = .ok payload)
    (hne : payload.updates ≠ [])
    (hresp : (pushRoute body descends refs persistThrow).response = some resp) :
    (resp.results.map Prod.fst).Nodup ∧
    (∀ k, (∃ v, lookupA resp.results k = some v) ↔
      k ∈ payload.updates.map (fun u => u.dst)) ∧
    (∀ m, persistThrow = some m → ∀ q ∈ resp.results, q.2 = ⟨"error", some m⟩) := by
  have hlen : ¬payload.updates.length = 0 :=
    fun h => hne (List.eq_nil_of_length_eq_zero h)
  have hroute : pushRoute body descends refs persistThrow =
      ⟨200, true, some payload,
        some (pushPackHandler descends refs payload.updates persistThrow)⟩ := by
    simp only [pushRoute, hparse, if_neg hlen]
  rw [hroute] at hresp
  have hresp' : resp = pushPackHandler descends refs payload.updates persistThrow := by
    simpa using hresp.symm
  subst hresp'
  cases persistThrow with
  | some m =>
      refine ⟨fromEntries_nodup _, ?_, ?_⟩
      · intro k
        rw [lookupA_isSome_iff_mem]
        show k ∈ (buildPushErrorResults payload.updates m).map Prod.fst ↔ _
        rw [buildPushErrorResults, fromEntries_mem]
        simp
      · intro m' hm q hq
        have hm' : m' = m := by
          injection hm with h
          exact h.symm
        subst hm'
        refine fromEntries_values _ _ ?_ q hq
        intro p hp
        rcases List.mem_map.mp hp with ⟨u, _, hu⟩
        exact hu ▸ rfl
  | none =>
      refine ⟨fromEntries_nodup _, ?_, ?_⟩
      · intro k
        rw [lookupA_isSome_iff_mem]
        show k ∈ (fromEntries
          (persistPushSteps descends refs payload.updates).2).map Prod.fst ↔ _
        rw [fromEntries_mem, persistPushSteps_fst]
      · intro m hm
        exact absurd hm (by simp)

/-- Witness for C3 at a concrete one-ref push whose persistence throws
`"boom"`: the response enumerates `refs/heads/main` with the error. -/
theorem c3_push_results_enumerate_all_refs_check :
    (∃ v, lookupA (pushPackHandler (fun _ _ => false) []
      (normalizePushPayload (some (.obj
        [("updates", .arr [.obj [("dst", .str "refs/heads/main")]])])) none).updates
      (some "boom")).results "refs/heads/main" = some v) ∧
    (∀ q ∈ (pushPackHandler (fun _ _ => false) []
      (normalizePushPayload (some (.obj
        [("updates", .arr [.obj [("dst", .str "refs/heads/main")]])])) none).updates
      (some "boom")).results, q.2 = ⟨"error", some "boom"⟩) := by
  have h := c3_push_results_enumerate_all_refs
    (PushBody.json (some (.obj
      [("updates", .arr [.obj [("dst", .str "refs/heads/main")]])])))
    (fun _ _ => false) [] (some "boom")
    (normalizePushPayload (some (.obj
      [("updates", .arr [.obj [("dst", .str "refs/heads/main")]])])) none)
    (pushPackHandler (fun _ _ => false) []
      (normalizePushPayload (some (.obj
        [("updates", .arr [.obj [("dst", .str "refs/heads/main")]])])) none).updates
      (some "boom"))
    rfl (by decide) rfl
  exact ⟨(h.2.1 "refs/heads/main").mpr (by decide), h.2.2 "boom" rfl⟩

/-- C5 counterexample: a multipart push request whose `metadata` field is
not valid JSON causes no persistence call but is answered with HTTP 500 —
not 400 as the claim states for "every other push request". -/
theorem c5_push_route_counterexample :
    (pushRoute (.multipart true none []) (fun _ _ => false) [] none).persistCalled
      = false ∧
    (pushRoute (.multipart true none []) (fun _ _ => false) [] none).status = 500 ∧
    (pushRoute (.multipart true none []) (fun _ _ => false) [] none).status ≠ 400 :=
  ⟨rfl, rfl, by decide⟩

/-- C5 (amended): the `/git/push` route invokes the persistence callback
exactly for bodies that parse with at least one update (each of which has
a non-empty `dst`); every other request is answered 400 — except a
multipart body whose metadata failed to parse (or whose pack stream
errored), which is answered 500 — and in either case no persistence call
happens.  A binary multipart pack part is forwarded as the exact base64
encoding of its concatenated bytes. -/
theorem c5_push_route_amended (descends : String → String → Bool)
    (refs : List (String × String)) (persistThrow : Option String) :
    (∀ body, (pushRoute body descends refs persistThrow).persistCalled = true ↔
      (∃ payload, parsePushPayload body = .ok payload ∧ payload.updates ≠ [])) ∧
    (∀ body payload, parsePushPayload body = .ok payload →
      ∀ u ∈ payload.updates, u.dst ≠ "") ∧
    (∀ body, (pushRoute body descends refs persistThrow).persistCalled = false →
      (pushRoute body descends refs persistThrow).status = 400 ∨
      (pushRoute body descends refs persistThrow).status = 500) ∧
    (∀ body, (pushRoute body descends refs persistThrow).status = 500 ↔
      ∃ md chunks, body = .multipart true md chunks) ∧
    (∀ md chunks payload, chunks ≠ [] →
      parsePushPayload (.multipart false md chunks) = .ok payload →
      payload.packBase64 = some (String.mk (b64EncodeList chunks.flatten))) := by
  have hparse500 : ∀ body, parsePushPayload body = .error () ↔
      ∃ md chunks, body = PushBody.multipart true md chunks := by
    intro body
    cases body with
    | json b => simp [parsePushPayload]
    | multipart err md chunks =>
        cases err with
        | true => simp [parsePushPayload]
        | false => simp [parsePushPayload]
  refine ⟨?_, ?_, ?_, ?_, ?_⟩
  · intro body
    cases hp : parsePushPayload body with
    | error e =>
        have hr : pushRoute body descends refs persistThrow =
            ⟨500, false, none, none⟩ := by
          simp only [pushRoute, hp]
        rw [hr]
        constructor
        · intro h
          exact absurd h (by decide)
        · rintro ⟨p, hpe, _⟩
          simp at hpe
    | ok payload =>
        by_cases hu : payload.updates.length = 0
        · have hemp : payload.updates = [] := List.eq_nil_of_length_eq_zero hu
          have hr : pushRoute body descends refs persistThrow =
              ⟨400, false, none, none⟩ := by
            simp only [pushRoute, hp, if_pos hu]
          rw [hr]
          constructor
          · intro h
            exact absurd h (by decide)
          · rintro ⟨p, hpe, hpne⟩
            injection hpe with hpe
            exact absurd hemp (hpe ▸ hpne)
        · have hr : pushRoute body descends refs persistThrow =
              ⟨200, true, some payload,
                some (pushPackHandler descends refs payload.updates persistThrow)⟩ := by
            simp only [pushRoute, hp, if_neg hu]
          rw [hr]
          exact ⟨fun _ => ⟨payload, rfl,
            fun h => hu (by rw [h]; rfl)⟩, fun _ => rfl⟩
  · intro body payload hp
    cases body with
    | json b =>
        injection hp with hp
        rw [← hp]
        exact parseUpdates_dst_ne _
    | multipart err md chunks =>
        cases err with
        | true => exact absurd hp (by simp [parsePushPayload])
        | false =>
            simp only [parsePushPayload, Bool.false_eq_true, if_false] at hp
            injection hp with hp
            rw [← hp]
            exact parseUpdates_dst_ne _
  · intro body h
    cases hp : parsePushPayload body with
    | error e =>
        right
        simp only [pushRoute, hp]
    | ok payload =>
        by_cases hu : payload.updates.length = 0
        · left
          simp only [pushRoute, hp, if_pos hu]
        · have hr : (pushRoute body descends refs persistThrow).persistCalled
              = true := by
            simp only [pushRoute, hp, if_neg hu]
          rw [h] at hr
          exact absurd hr (by decide)
  · intro body
    rw [← hparse500 body]
    cases hp : parsePushPayload body with
    | error e =>
        have hr : pushRoute body descends refs persistThrow =
            ⟨500, false, none, none⟩ := by
          simp only [pushRoute, hp]
        rw [hr]
        cases e
        exact ⟨fun _ => rfl, fun _ => rfl⟩
    | ok payload =>
        by_cases hu : payload.updates.length = 0
        · have hr : pushRoute body descends refs persistThrow =
              ⟨400, false, none, none⟩ := by
            simp only [pushRoute, hp, if_pos hu]
          rw [hr]
          constructor
          · intro h400
            exact absurd h400 (by decide)
          · intro he
            simp at he
        · have hr : pushRoute body descends refs persistThrow =
              ⟨200, true, some payload,
                some (pushPackHandler descends refs payload.updates persistThrow)⟩ := by
            simp only [pushRoute, hp, if_neg hu]
          rw [hr]
          constructor
          · intro h200
            simp at h200
          · intro he
            simp at he
  · intro md chunks payload hne hp
    have hlen : chunks.length > 0 := List.length_pos.mpr hne
    simp only [parsePushPayload, Bool.false_eq_true, if_false, if_pos hlen] at hp
    injection hp with hp
    rw [← hp]
    rfl

/-- Witness for C5 at concrete bodies: a one-ref JSON push invokes
persistence; an empty JSON body is answered 400 without invocation; a
two-chunk multipart pack part arrives as the base64 of its concatenation. -/
theorem c5_push_route_amended_check :
    (pushRoute (PushBody.json (some (.obj
        [("updates", .arr [.obj [("dst", .str "refs/heads/main")]])])))
      (fun _ _ => false) [] none).persistCalled = true ∧
    (pushRoute (PushBody.json none) (fun _ _ => false) [] none).status = 400 ∧
    (∃ payload, parsePushPayload (.multipart false none [[102], [111, 111]]) =
      .ok payload ∧
      payload.packBase64 = some (String.mk (b64EncodeList [102, 111, 111]))) := by
  have h := c5_push_route_amended (fun _ _ => false) [] none
  refine ⟨?_, ?_, ?_⟩
  · exact (h.1 _).mpr ⟨_, rfl, by decide⟩
  · rcases h.2.2.1 (PushBody.json none) rfl with h4 | h5
    · exact h4
    · exact absurd ((h.2.2.2.1 _).mp h5)
        (by rintro ⟨md, chunks, hcon⟩; cases hcon)
  · refine ⟨_, rfl, ?_⟩
    have hfwd := h.2.2.2.2 none [[102], [111, 111]] _ (by decide) rfl
    simpa using hfwd

/-! ## `PackFileStore` isolation lemmas -/

theorem heapGet_append_lt (h : List (List Nat)) (x : List Nat) (c : Nat)
    (hc : c < h.length) : heapGet (h ++ [x]) c = heapGet h c := by
  induction h generalizing c with
  | nil => simp at hc
  | cons a t ih =>
      cases c with
      | zero => rfl
      | succ c' => exact ih c' (by simpa using hc)

theorem heapGet_append_self (h : List (List Nat)) (x : List Nat) :
    heapGet (h ++ [x]) h.length = x := by
  induction h with
  | nil => rfl
  | cons a t ih => exact ih

theorem heapGet_set_ne (h : List (List Nat)) (c' : Nat) (x : List Nat)
    (c : Nat) (hne : c ≠ c') : heapGet (h.set c' x) c = heapGet h c := by
  induction h generalizing c c' with
  | nil => rfl
  | cons a t ih =>
      cases c' with
      | zero =>
          cases c with
          | zero => exact absurd rfl hne
          | succ e => rfl
      | succ d =>
          cases c with
          | zero => rfl
          | succ e => exact ih d e (fun hc => hne (by rw [hc]))

theorem lookupA_setA_split {κ : Type} [DecidableEq κ] {α : Type}
    (l : List (κ × α)) (k k' : κ) (v : α) :
    lookupA (setA l k v) k' = if k = k' then some v else lookupA l k' := by
  by_cases h : k = k'
  · subst h
    simp [lookupA_setA_self]
  · simp [h, lookupA_setA_ne l k k' v h]

theorem pf_inv_step (s : PFState) (op : PFOp) (hinv : PFInv s) :
    PFInv (pfStep s op) := by
  obtain ⟨hexp, hstore⟩ := hinv
  cases op with
  | write k j now =>
      cases hj : s.exposed[j]? with
      | none =>
          simp only [pfStep, hj]
          exact ⟨hexp, hstore⟩
      | some cid =>
          simp only [pfStep, hj]
          constructor
          · intro e he
            have := hexp e he
            simp only [List.length_append, List.length_singleton]
            omega
          · intro k' c t hl
            rw [lookupA_setA_split] at hl
            by_cases hk : k = k'
            · rw [if_pos hk] at hl
              injection hl with hl
              have hc : c = s.heap.length := ((Prod.mk.injEq _ _ _ _).mp hl.symm).1
              subst hc
              refine ⟨?_, ?_⟩
              · simp only [List.length_append, List.length_singleton]
                omega
              · intro hmem
                have := hexp _ hmem
                omega
            · rw [if_neg hk] at hl
              obtain ⟨hlt, hnm⟩ := hstore k' c t hl
              refine ⟨?_, hnm⟩
              simp only [List.length_append, List.length_singleton]
              omega
  | read k =>
      cases hl : lookupA s.store k with
      | none =>
          simp only [pfStep, hl]
          exact ⟨hexp, hstore⟩
      | some ct =>
          simp only [pfStep, hl]
          constructor
          · intro e he
            simp only [List.length_append, List.length_singleton]
            rcases List.mem_append.mp he with h | h
            · have := hexp e h
              omega
            · have : e = s.heap.length := by simpa using h
              omega
          · intro k' c t hl'
            obtain ⟨hlt, hnm⟩ := hstore k' c t hl'
            constructor
            · simp only [List.length_append, List.length_singleton]
              omega
            · intro hmem
              rcases List.mem_append.mp hmem with h | h
              · exact hnm h
              · have : c = s.heap.length := by simpa using h
                omega
  | mutate j i v =>
      cases hj : s.exposed[j]? with
      | none =>
          simp only [pfStep, hj]
          exact ⟨hexp, hstore⟩
      | some cid =>
          simp only [pfStep, hj]
          constructor
          · intro e he
            simp only [List.length_set]
            exact hexp e he
          · intro k' c t hl
            obtain ⟨hlt, hnm⟩ := hstore k' c t hl
            exact ⟨by simpa [List.length_set] using hlt, hnm⟩

theorem pf_storeBytes_step (s : PFState) (op : PFOp) (k : String)
    (hinv : PFInv s) (hnw : writesKey op k = false) :
    storeBytes (pfStep s op) k = storeBytes s k := by
  obtain ⟨hexp, hstore⟩ := hinv
  cases op with
  | write k' j now =>
      have hkk : ¬k' = k := by simpa [writesKey] using hnw
      cases hj : s.exposed[j]? with
      | none => simp [pfStep, hj]
      | some cid =>
          simp only [storeBytes, pfStep, hj]
          rw [lookupA_setA_ne _ _ _ _ hkk]
          cases hl : lookupA s.store k with
          | none => rfl
          | some ct =>
              obtain ⟨hlt, _⟩ := hstore k ct.1 ct.2 (by simpa using hl)
              simp [heapGet_append_lt _ _ _ hlt]
  | read k' =>
      cases hl' : lookupA s.store k' with
      | none => simp [pfStep, hl']
      | some ct' =>
          simp only [storeBytes, pfStep, hl']
          cases hl : lookupA s.store k with
          | none => rfl
          | some ct =>
              obtain ⟨hlt, _⟩ := hstore k ct.1 ct.2 (by simpa using hl)
              simp [heapGet_append_lt _ _ _ hlt]
  | mutate j i v =>
      cases hj : s.exposed[j]? with
      | none => simp [pfStep, hj]
      | some cid =>
          simp only [storeBytes, pfStep, hj]
          cases hl : lookupA s.store k with
          | none => rfl
          | some ct =>
              obtain ⟨hlt, hnm⟩ := hstore k ct.1 ct.2 (by simpa using hl)
              have hcid : cid ∈ s.exposed := by
                have := List.getElem?_eq_some_iff.mp hj
                obtain ⟨hjl, hget⟩ := this
                exact hget ▸ List.getElem_mem hjl
              have hne : ct.1 ≠ cid := fun hc => hnm (hc ▸ hcid)
              simp [heapGet_set_ne _ _ _ _ hne]

theorem pf_storeBytes_run (s : PFState) (ops : List PFOp) (k : String)
    (hinv : PFInv s) (hnw : ∀ op ∈ ops, writesKey op k = false) :
    storeBytes (pfRun s ops) k = storeBytes s k ∧ PFInv (pfRun s ops) := by
  induction ops generalizing s with
  | nil => exact ⟨rfl, hinv⟩
  | cons op rest ih =>
      have hstep := pf_storeBytes_step s op k hinv (hnw op (by simp))
      have hinv' := pf_inv_step s op hinv
      obtain ⟨hrun, hinvr⟩ := ih (pfStep s op) hinv'
        (fun o ho => hnw o (by simp [ho]))
      exact ⟨hrun.trans hstep, hinvr⟩

/-- C10: `PackFileStore` isolates stored bytes from callers.  Store cells
stay private under every operation; any operation sequence containing no
`write` to key `k` leaves the bytes stored under `k` unchanged (so caller
mutations of buffers previously passed to `write` or returned by `read`
never alter the store, and repeated reads return identical bytes); and
`read` hands the caller a fresh buffer holding exactly the stored
bytes. -/
theorem c10_packFileStore_isolation :
    (∀ s op, PFInv s → PFInv (pfStep s op)) ∧
    (∀ s ops k, PFInv s → (∀ op ∈ ops, writesKey op k = false) →
      storeBytes (pfRun s ops) k = storeBytes s k) ∧
    (∀ s k ct, PFInv s → lookupA s.store k = some ct →
      (pfStep s (.read k)).exposed = s.exposed ++ [s.heap.length] ∧
      heapGet (pfStep s (.read k)).heap s.heap.length = heapGet s.heap ct.1 ∧
      storeBytes s k = some (heapGet s.heap ct.1) ∧
      s.heap.length ∉ s.exposed) := by
  refine ⟨pf_inv_step, fun s ops k hinv hnw =>
    (pf_storeBytes_run s ops k hinv hnw).1, ?_⟩
  intro s k ct hinv hl
  refine ⟨by simp [pfStep, hl], ?_, by simp [storeBytes, hl], ?_⟩
  · simp only [pfStep, hl]
    exact heapGet_append_self _ _
  · intro hmem
    have := hinv.1 _ hmem
    omega

/-- Witness for C10: a caller buffer `[1, 2]` is written under `"k"`;
mutating the caller's buffer afterwards and reading do not change the
stored bytes, which remain `[1, 2]`. -/
theorem c10_packFileStore_isolation_check :
    storeBytes (pfRun (pfStep ⟨[[1, 2]], [0], []⟩ (.write "k" 0 5))
      [.mutate 0 0 9, .read "k"]) "k" =
      storeBytes (pfStep ⟨[[1, 2]], [0], []⟩ (.write "k" 0 5)) "k" ∧
    storeBytes (pfStep ⟨[[1, 2]], [0], []⟩ (.write "k" 0 5)) "k" = some [1, 2] := by
  have hinv0 : PFInv ⟨[[1, 2]], [0], []⟩ := by
    constructor
    · intro e he
      simp only [List.mem_singleton] at he
      subst he
      simp
    · intro k c t h
      exact absurd h (by simp [lookupA])
  have hinv1 := c10_packFileStore_isolation.1 _ (.write "k" 0 5) hinv0
  refine ⟨c10_packFileStore_isolation.2.1 _ [.mutate 0 0 9, .read "k"] "k" hinv1
    ?_, by decide⟩
  intro op hop
  rcases List.mem_pair.mp hop with h | h <;> subst h <;> rfl

/-! ## Path normalization lemmas -/

theorem splitSl_ne_nil (cs : Chars) : splitSl cs ≠ [] := by
  cases cs with
  | nil => simp [splitSl]
  | cons c rest =>
      unfold splitSl
      cases splitSl rest with
      | nil => simp
      | cons g gs =>
          by_cases h : c = '/' <;> simp [h]

theorem splitSl_no_slash_mem (cs : Chars) :
    ∀ g ∈ splitSl cs, '/' ∉ g := by
  induction cs with
  | nil =>
      intro g hg
      simp [splitSl] at hg
      simp [hg]
  | cons c rest ih =>
      intro g hg
      cases hs : splitSl rest with
      | nil => exact absurd hs (splitSl_ne_nil rest)
      | cons g0 gs =>
          have hred : splitSl (c :: rest) =
              if c = '/' then [] :: g0 :: gs else (c :: g0) :: gs := by
            unfold splitSl
            rw [hs]
          rw [hred] at hg
          by_cases hc : c = '/'
          · rw [if_pos hc] at hg
            rcases List.mem_cons.mp hg with h | h
            · simp [h]
            · exact ih g (hs ▸ h)
          · rw [if_neg hc] at hg
            rcases List.mem_cons.mp hg with h | h
            · subst h
              intro hmem
              rcases List.mem_cons.mp hmem with h' | h'
              · exact hc h'.symm
              · exact ih g0 (hs ▸ List.mem_cons_self g0 gs) h'
            · exact ih g (hs ▸ List.mem_cons_of_mem g0 h)

theorem splitSl_chars_subset (cs : Chars) :
    ∀ g ∈ splitSl cs, ∀ c ∈ g, c ∈ cs := by
  induction cs with
  | nil =>
      intro g hg c hc
      simp [splitSl] at hg
      subst hg
      simp at hc
  | cons d rest ih =>
      intro g hg c hc
      cases hs : splitSl rest with
      | nil => exact absurd hs (splitSl_ne_nil rest)
      | cons g0 gs =>
          have hred : splitSl (d :: rest) =
              if d = '/' then [] :: g0 :: gs else (d :: g0) :: gs := by
            unfold splitSl
            rw [hs]
          rw [hred] at hg
          by_cases hd : d = '/'
          · rw [if_pos hd] at hg
            rcases List.mem_cons.mp hg with h | h
            · subst h
              simp at hc
            · exact List.mem_cons_of_mem d (ih g (hs ▸ h) c hc)
          · rw [if_neg hd] at hg
            rcases List.mem_cons.mp hg with h | h
            · subst h
              rcases List.mem_cons.mp hc with h' | h'
              · exact h' ▸ List.mem_cons_self d rest
              · exact List.mem_cons_of_mem d
                  (ih g0 (hs ▸ List.mem_cons_self g0 gs) c h')
            · exact List.mem_cons_of_mem d (ih g (hs ▸ List.mem_cons_of_mem g0 h) c hc)

theorem resolveDots_foldl_mem (segs : List Seg) :
    ∀ (acc : List Seg) (s : Seg),
      s ∈ segs.foldl
        (fun acc seg =>
          if seg = [] ∨ seg = ['.'] then acc
          else if seg = ['.', '.'] then acc.dropLast
          else acc ++ [seg]) acc →
      s ∈ acc ∨ (s ∈ segs ∧ s ≠ [] ∧ s ≠ ['.'] ∧ s ≠ ['.', '.']) := by
  induction segs with
  | nil =>
      intro acc s hs
      exact Or.inl hs
  | cons seg rest ih =>
      intro acc s hs
      simp only [List.foldl_cons] at hs
      by_cases h1 : seg = [] ∨ seg = ['.']
      · rw [if_pos h1] at hs
        rcases ih acc s hs with h | h
        · exact Or.inl h
        · exact Or.inr ⟨List.mem_cons_of_mem _ h.1, h.2⟩
      · rw [if_neg h1] at hs
        by_cases h2 : seg = ['.', '.']
        · rw [if_pos h2] at hs
          rcases ih acc.dropLast s hs with h | h
          · exact Or.inl ((List.dropLast_sublist acc).subset h)
          · exact Or.inr ⟨List.mem_cons_of_mem _ h.1, h.2⟩
        · rw [if_neg h2] at hs
          rcases ih (acc ++ [seg]) s hs with h | h
          · rcases List.mem_append.mp h with h' | h'
            · exact Or.inl h'
            · have hseg : s = seg := by simpa using h'
              subst hseg
              push_neg at h1
              exact Or.inr ⟨List.mem_cons_self _ _, h1.1, h1.2, h2⟩
          · exact Or.inr ⟨List.mem_cons_of_mem _ h.1, h.2⟩

theorem jsTrim_subset (cs : Chars) : ∀ c ∈ jsTrim cs, c ∈ cs := by
  intro c hc
  unfold jsTrim at hc
  rw [List.mem_reverse] at hc
  have h1 := (List.dropWhile_sublist _).subset hc
  rw [List.mem_reverse] at h1
  exact (List.dropWhile_sublist _).subset h1

theorem collapseSlashes_subset (cs : Chars) :
    ∀ c ∈ collapseSlashes cs, c ∈ cs := by
  induction cs with
  | nil => simp [collapseSlashes]
  | cons a rest ih =>
      intro c hc
      cases rest with
      | nil => simpa [collapseSlashes] using hc
      | cons b r =>
          unfold collapseSlashes at hc
          by_cases h : a = '/' ∧ b = '/'
          · rw [if_pos h] at hc
            exact List.mem_cons_of_mem a (ih c hc)
          · rw [if_neg h] at hc
            rcases List.mem_cons.mp hc with h' | h'
            · exact h' ▸ List.mem_cons_self a _
            · exact List.mem_cons_of_mem a (ih c h')

theorem mapBackslash_no_bs (cs : Chars) : ∀ c ∈ mapBackslash cs, c ≠ '\\' := by
  intro c hc
  rcases List.mem_map.mp hc with ⟨d, _, hd⟩
  by_cases h : d = '\\'
  · rw [← hd, if_pos h]
    decide
  · rw [← hd, if_neg h]
    exact h

theorem normalizeSegs_pure (cs : Chars) :
    ∀ s ∈ normalizeSegs cs,
      s ≠ [] ∧ s ≠ ['.'] ∧ s ≠ ['.', '.'] ∧ '/' ∉ s ∧ '\\' ∉ s := by
  intro s hs
  unfold normalizeSegs at hs
  by_cases h0 : cs = []
  · rw [if_pos h0] at hs
    simp at hs
  · rw [if_neg h0] at hs
    by_cases h1 : jsTrim (collapseSlashes (mapBackslash cs)) = []
    · rw [if_pos h1] at hs
      simp at hs
    · rw [if_neg h1] at hs
      have hres := resolveDots_foldl_mem _ [] s hs
      rcases hres with h | ⟨hmem, hne, hd1, hd2⟩
      · simp at h
      · refine ⟨hne, hd1, hd2, splitSl_no_slash_mem _ s hmem, ?_⟩
        intro hbs
        have hchar := splitSl_chars_subset _ s hmem '\\' hbs
        have hin : ('\\' : Char) ∈ jsTrim (collapseSlashes (mapBackslash cs)) := by
          by_cases hh : (jsTrim (collapseSlashes (mapBackslash cs))).head? = some '/'
          · rw [if_pos hh] at hchar
            exact hchar
          · rw [if_neg hh] at hchar
            rcases List.mem_cons.mp hchar with h' | h'
            · exact absurd h'.symm (by decide)
            · exact h'
        exact mapBackslash_no_bs cs '\\'
          (collapseSlashes_subset _ '\\' (jsTrim_subset _ '\\' hin)) rfl

theorem mapBackslash_eq_self (cs : Chars) (h : ∀ c ∈ cs, c ≠ '\\') :
    mapBackslash cs = cs := by
  induction cs with
  | nil => rfl
  | cons c rest ih =>
      unfold mapBackslash
      simp only [List.map_cons, if_neg (h c (List.mem_cons_self c rest)),
        List.cons.injEq, true_and]
      exact ih (fun d hd => h d (List.mem_cons_of_mem c hd))

theorem collapseSlashes_eq_self (cs : Chars)
    (h : List.Chain' (fun a b => ¬(a = '/' ∧ b = '/')) cs) :
    collapseSlashes cs = cs := by
  induction cs with
  | nil => rfl
  | cons a rest ih =>
      cases rest with
      | nil => rfl
      | cons b r =>
          rw [List.chain'_cons] at h
          unfold collapseSlashes
          rw [if_neg h.1]
          simp only [List.cons.injEq, true_and]
          exact ih h.2

theorem chain_no_slash (s : Chars) (h : '/' ∉ s) :
    List.Chain' (fun a b => ¬(a = '/' ∧ b = '/')) s := by
  induction s with
  | nil => exact List.chain'_nil
  | cons a rest ih =>
      rw [List.chain'_cons']
      refine ⟨?_, ih (fun hm => h (List.mem_cons_of_mem a hm))⟩
      intro b hb hab
      rcases rest with _ | ⟨b', r⟩
      · simp at hb
      · have hbb : b' = b := by simpa using hb
        subst hbb
        exact h (hab.2 ▸ List.mem_cons_of_mem a (List.mem_cons_self b' r))

theorem chain_append_seg (s tail : Chars) (hs : '/' ∉ s)
    (ht : List.Chain' (fun a b => ¬(a = '/' ∧ b = '/')) ('/' :: tail)) :
    List.Chain' (fun a b => ¬(a = '/' ∧ b = '/')) (s ++ '/' :: tail) := by
  induction s with
  | nil => exact ht
  | cons a rest ih =>
      rw [List.cons_append, List.chain'_cons']
      constructor
      · intro b hb hab
        apply hs
        rw [hab.1]
        exact List.mem_cons_self _ _
      · exact ih (fun hm => hs (List.mem_cons_of_mem a hm))

theorem chain_join (segs : List Seg)
    (hp : ∀ s ∈ segs, s ≠ [] ∧ '/' ∉ s) :
    List.Chain' (fun a b => ¬(a = '/' ∧ b = '/')) ('/' :: joinSegs segs) := by
  induction segs with
  | nil => simp [joinSegs]
  | cons s rest ih =>
      cases rest with
      | nil =>
          show List.Chain' _ ('/' :: joinSegs [s])
          rw [List.chain'_cons']
          obtain ⟨hne, hsl⟩ := hp s (List.mem_cons_self s [])
          constructor
          · intro b hb hab
            apply hsl
            cases s with
            | nil => exact absurd rfl hne
            | cons c cs =>
                have hcb : c = b := by simpa [joinSegs] using hb
                rw [show ('/' : Char) = c from (hcb.trans hab.2).symm]
                exact List.mem_cons_self c cs
          · exact chain_no_slash _ hsl
      | cons r rs =>
          have hjoin : joinSegs (s :: r :: rs) = s ++ '/' :: joinSegs (r :: rs) := rfl
          rw [hjoin, List.chain'_cons']
          obtain ⟨hne, hsl⟩ := hp s (List.mem_cons_self s _)
          constructor
          · intro b hb hab
            apply hsl
            cases s with
            | nil => exact absurd rfl hne
            | cons c cs =>
                have hcb : c = b := by simpa using hb
                rw [show ('/' : Char) = c from (hcb.trans hab.2).symm]
                exact List.mem_cons_self c cs
          · exact chain_append_seg s _ hsl
              (ih (fun t ht => hp t (List.mem_cons_of_mem s ht)))

theorem jsTrim_eq_self_of_ends (cs : Chars)
    (hh : ∀ c, cs.head? = some c → isJsWs c = false)
    (hl : ∀ c, cs.getLast? = some c → isJsWs c = false) :
    jsTrim cs = cs := by
  unfold jsTrim
  have h1 : cs.dropWhile isJsWs = cs := by
    cases cs with
    | nil => rfl
    | cons c rest => simp [List.dropWhile, hh c rfl]
  rw [h1]
  have h2 : cs.reverse.dropWhile isJsWs = cs.reverse := by
    cases hrev : cs.reverse with
    | nil => rfl
    | cons c rest =>
        have : cs.getLast? = some c := by
          rw [← List.head?_reverse, hrev]
          rfl
        simp [List.dropWhile, hl c this]
  rw [h2, List.reverse_reverse]

theorem splitSl_cons_slash (cs : Chars) :
    splitSl ('/' :: cs) = [] :: splitSl cs := by
  cases h : splitSl cs with
  | nil => exact absurd h (splitSl_ne_nil cs)
  | cons g gs => simp [splitSl, h]

theorem splitSl_no_slash (s : Chars) (h : '/' ∉ s) : splitSl s = [s] := by
  induction s with
  | nil => rfl
  | cons c rest ih =>
      have hc : ¬c = '/' := fun hc => h (hc ▸ List.mem_cons_self c rest)
      simp [splitSl, ih (fun hm => h (List.mem_cons_of_mem c hm)), hc]

theorem splitSl_append_slash (s tail : Chars) (h : '/' ∉ s) :
    splitSl (s ++ '/' :: tail) = s :: splitSl tail := by
  induction s with
  | nil => exact splitSl_cons_slash tail
  | cons c rest ih =>
      rw [List.cons_append]
      have hc : ¬c = '/' := fun hc => h (hc ▸ List.mem_cons_self c rest)
      simp [splitSl, ih (fun hm => h (List.mem_cons_of_mem c hm)), hc]

theorem splitSl_join (segs : List Seg) (hne : segs ≠ [])
    (hp : ∀ s ∈ segs, s ≠ [] ∧ '/' ∉ s) :
    splitSl ('/' :: joinSegs segs) = [] :: segs := by
  rw [splitSl_cons_slash]
  induction segs with
  | nil => exact absurd rfl hne
  | cons s rest ih =>
      cases rest with
      | nil =>
          show [] :: splitSl (joinSegs [s]) = [] :: [s]
          rw [show joinSegs [s] = s from rfl,
            splitSl_no_slash s (hp s (List.mem_cons_self s [])).2]
      | cons r rs =>
          have hjoin : joinSegs (s :: r :: rs) = s ++ '/' :: joinSegs (r :: rs) := rfl
          rw [hjoin, splitSl_append_slash s _ (hp s (List.mem_cons_self s _)).2]
          have ihr := ih (by simp) (fun t ht => hp t (List.mem_cons_of_mem s ht))
          injection ihr with _ h3
          rw [h3]

theorem resolveDots_foldl_pure (segs : List Seg)
    (hp : ∀ s ∈ segs, s ≠ [] ∧ s ≠ ['.'] ∧ s ≠ ['.', '.']) :
    ∀ acc, segs.foldl
      (fun acc seg =>
        if seg = [] ∨ seg = ['.'] then acc
        else if seg = ['.', '.'] then acc.dropLast
        else acc ++ [seg]) acc = acc ++ segs := by
  induction segs with
  | nil => intro acc; simp
  | cons s rest ih =>
      intro acc
      obtain ⟨h1, h2, h3⟩ := hp s (List.mem_cons_self s rest)
      simp only [List.foldl_cons, if_neg (by simp [h1, h2] : ¬(s = [] ∨ s = ['.'])),
        if_neg h3]
      rw [ih (fun t ht => hp t (List.mem_cons_of_mem s ht)) (acc ++ [s])]
      simp

theorem resolveDots_pure (segs : List Seg)
    (hp : ∀ s ∈ segs, s ≠ [] ∧ s ≠ ['.'] ∧ s ≠ ['.', '.']) :
    resolveDots segs = segs := by
  unfold resolveDots
  rw [resolveDots_foldl_pure segs hp []]
  simp

theorem joinSegs_chars (segs : List Seg) :
    ∀ c ∈ joinSegs segs, c = '/' ∨ ∃ s ∈ segs, c ∈ s := by
  induction segs with
  | nil => simp [joinSegs]
  | cons s rest ih =>
      intro c hc
      cases rest with
      | nil =>
          right
          exact ⟨s, List.mem_cons_self s [], by simpa [joinSegs] using hc⟩
      | cons r rs =>
          have hjoin : joinSegs (s :: r :: rs) = s ++ '/' :: joinSegs (r :: rs) := rfl
          rw [hjoin] at hc
          rcases List.mem_append.mp hc with h | h
          · exact Or.inr ⟨s, List.mem_cons_self s _, h⟩
          · rcases List.mem_cons.mp h with h' | h'
            · exact Or.inl h'
            · rcases ih c h' with h'' | ⟨t, ht, hct⟩
              · exact Or.inl h''
              · exact Or.inr ⟨t, List.mem_cons_of_mem s ht, hct⟩

theorem normalizeSegs_normChars (cs : Chars)
    (hws : ∀ c, (normChars cs).getLast? = some c → isJsWs c = false) :
    normalizeSegs (normChars cs) = normalizeSegs cs := by
  have hpure := normalizeSegs_pure cs
  by_cases hnil : normalizeSegs cs = []
  · rw [hnil]
    have h1 : normChars cs = ['/'] := by
      rw [normChars, hnil]
      rfl
    rw [h1]
    decide
  · have hpure' : ∀ s ∈ normalizeSegs cs, s ≠ [] ∧ '/' ∉ s :=
      fun s hs => ⟨(hpure s hs).1, (hpure s hs).2.2.2.1⟩
    have hnobs : ∀ c ∈ normChars cs, c ≠ '\\' := by
      intro c hc
      rcases List.mem_cons.mp hc with h | h
      · subst h
        decide
      · rcases joinSegs_chars _ c h with h' | ⟨s, hsm, hcs⟩
        · subst h'
          decide
        · intro hb
          exact (hpure s hsm).2.2.2.2 (hb ▸ hcs)
    have hmap : mapBackslash (normChars cs) = normChars cs :=
      mapBackslash_eq_self _ hnobs
    have hcoll : collapseSlashes (normChars cs) = normChars cs :=
      collapseSlashes_eq_self _ (chain_join _ hpure')
    have htrim : jsTrim (normChars cs) = normChars cs := by
      refine jsTrim_eq_self_of_ends _ ?_ hws
      intro c hc
      have hc2 : '/' = c := by simpa [normChars] using hc
      rw [← hc2]
      decide
    have hne1 : ¬normChars cs = [] := by simp [normChars]
    have hhead : (normChars cs).head? = some '/' := by simp [normChars]
    have hexp : normalizeSegs (normChars cs) =
        resolveDots (splitSl (normChars cs)) := by
      simp only [normalizeSegs, hmap, hcoll, htrim, hne1, hhead, if_false,
        ite_true, ite_false, eq_self_iff_true, if_true, if_neg hne1]
    rw [hexp]
    show resolveDots (splitSl ('/' :: joinSegs (normalizeSegs cs))) = _
    rw [splitSl_join _ hnil hpure']
    have hstep : resolveDots ([] :: normalizeSegs cs) =
        resolveDots (normalizeSegs cs) := by
      simp [resolveDots]
    rw [hstep, resolveDots_pure _ (fun s hs =>
      ⟨(hpure s hs).1, (hpure s hs).2.1, (hpure s hs).2.2.1⟩)]

theorem normChars_idem (cs : Chars)
    (hws : ∀ c, (normChars cs).getLast? = some c → isJsWs c = false) :
    normChars (normChars cs) = normChars cs := by
  show '/' :: joinSegs (normalizeSegs (normChars cs)) = normChars cs
  rw [normalizeSegs_normChars cs hws]
  rfl

theorem joinSegs_ne_nil (segs : List Seg) (hne : segs ≠ [])
    (hp : ∀ s ∈ segs, s ≠ []) : joinSegs segs ≠ [] := by
  cases segs with
  | nil => exact absurd rfl hne
  | cons s rest =>
      cases rest with
      | nil =>
          show joinSegs [s] ≠ []
          exact hp s (List.mem_cons_self s [])
      | cons r rs =>
          show s ++ '/' :: joinSegs (r :: rs) ≠ []
          simp

theorem normalizeSegs_inj (p q : Chars) (h : normChars p = normChars q) :
    normalizeSegs p = normalizeSegs q := by
  have hj : joinSegs (normalizeSegs p) = joinSegs (normalizeSegs q) := by
    have := h
    unfold normChars at this
    injection this
  by_cases hp : normalizeSegs p = []
  · by_cases hq : normalizeSegs q = []
    · rw [hp, hq]
    · exfalso
      apply joinSegs_ne_nil (normalizeSegs q) hq
        (fun s hs => (normalizeSegs_pure q s hs).1)
      rw [← hj, hp]
      rfl
  · by_cases hq : normalizeSegs q = []
    · exfalso
      apply joinSegs_ne_nil (normalizeSegs p) hp
        (fun s hs => (normalizeSegs_pure p s hs).1)
      rw [hj, hq]
      rfl
    · have h1 := splitSl_join (normalizeSegs p) hp
        (fun s hs => ⟨(normalizeSegs_pure p s hs).1,
          (normalizeSegs_pure p s hs).2.2.2.1⟩)
      have h2 := splitSl_join (normalizeSegs q) hq
        (fun s hs => ⟨(normalizeSegs_pure q s hs).1,
          (normalizeSegs_pure q s hs).2.2.2.1⟩)
      rw [← hj] at h2
      rw [h1] at h2
      injection h2

/-! ## Normal-form agreement of the filesystem operations -/

theorem sameFsOutcome_refl {α : Type} (r : Except FsError α × FsState) :
    sameFsOutcome r r := by
  obtain ⟨e, st⟩ := r
  refine ⟨rfl, ?_⟩
  cases e with
  | ok a => exact rfl
  | error e => exact rfl

theorem readFile_norm_agree (st : FsState) (p q : String)
    (hG : normChars p.data = normChars q.data) :
    sameFsOutcome (readFile st p) (readFile st q) := by
  unfold readFile
  try dsimp only
  rw [← hG]
  cases findNode st.root (normalizeSegs (normChars p.data)) with
  | none => exact ⟨rfl, rfl⟩
  | some node =>
      cases node with
      | dir es m t => exact ⟨rfl, rfl⟩
      | file data mode mtime size ext =>
          try dsimp only
          cases ext with
          | false =>
              try dsimp only
              cases data with
              | none => exact ⟨rfl, rfl⟩
              | some bytes => exact ⟨rfl, rfl⟩
          | true =>
              try dsimp only
              cases st.packStore with
              | none => exact ⟨rfl, rfl⟩
              | some ps =>
                  try dsimp only
                  cases lookupA ps (String.mk (normChars p.data)) with
                  | none => exact ⟨rfl, rfl⟩
                  | some entry => exact ⟨rfl, rfl⟩

theorem writeFile_norm_agree (st : FsState) (p q : String)
    (bytes : List Nat) (mode : Option Nat) (now : Nat)
    (hG : normChars p.data = normChars q.data) :
    sameFsOutcome (writeFile st p bytes mode now) (writeFile st q bytes mode now) := by
  unfold writeFile
  try dsimp only
  rw [← hG]
  exact sameFsOutcome_refl _

theorem unlink_norm_agree (st : FsState) (p q : String) (now : Nat)
    (hG : normChars p.data = normChars q.data) :
    sameFsOutcome (unlink st p now) (unlink st q now) := by
  unfold unlink
  try dsimp only
  rw [← hG]
  cases getParent st.root (normChars p.data) with
  | error e => exact ⟨rfl, rfl⟩
  | ok tup =>
      obtain ⟨psegs, name, es, m, t⟩ := tup
      try dsimp only
      cases lookupA es name with
      | none => exact ⟨rfl, rfl⟩
      | some node =>
          try dsimp only
          cases node with
          | dir es' m' t' => exact ⟨rfl, rfl⟩
          | file data mode mtime size ext => exact ⟨rfl, rfl⟩

theorem readdir_norm_agree (st : FsState) (p q : String)
    (hS : normalizeSegs p.data = normalizeSegs q.data) :
    sameFsOutcome (readdir st p) (readdir st q) := by
  unfold readdir
  rw [← hS]
  cases findNode st.root (normalizeSegs p.data) with
  | none => exact ⟨rfl, rfl⟩
  | some node =>
      cases node with
      | dir es m t => exact ⟨rfl, rfl⟩
      | file data mode mtime size ext => exact ⟨rfl, rfl⟩

theorem mkdir_norm_agree (st : FsState) (p q : String) (mode : Option Nat)
    (now : Nat) (hG : normChars p.data = normChars q.data) :
    sameFsOutcome (mkdir st p mode now) (mkdir st q mode now) := by
  unfold mkdir
  try dsimp only
  rw [← hG]
  exact sameFsOutcome_refl _

theorem rmdir_norm_agree (st : FsState) (p q : String) (now : Nat)
    (hG : normChars p.data = normChars q.data) :
    sameFsOutcome (rmdir st p now) (rmdir st q now) := by
  unfold rmdir
  try dsimp only
  rw [← hG]
  cases getParent st.root (normChars p.data) with
  | error e => exact ⟨rfl, rfl⟩
  | ok tup =>
      obtain ⟨psegs, name, es, m, t⟩ := tup
      try dsimp only
      cases lookupA es name with
      | none => exact ⟨rfl, rfl⟩
      | some node =>
          try dsimp only
          cases node with
          | file data mode mtime size ext => exact ⟨rfl, rfl⟩
          | dir es' m' t' =>
              try dsimp only
              by_cases hlen : es'.length > 0
              · simp only [if_pos hlen]
                exact ⟨rfl, rfl⟩
              · simp only [if_neg hlen]
                exact ⟨rfl, rfl⟩

theorem stat_norm_agree (st : FsState) (p q : String)
    (hG : normChars p.data = normChars q.data) :
    sameFsOutcome (stat st p) (stat st q) := by
  unfold stat
  try dsimp only
  rw [← hG]
  cases findNode st.root (normalizeSegs (normChars p.data)) with
  | none => exact ⟨rfl, rfl⟩
  | some node =>
      cases node with
      | dir es m t => exact ⟨rfl, rfl⟩
      | file data mode mtime size ext =>
          try dsimp only
          cases st.packStore with
          | none => exact ⟨rfl, rfl⟩
          | some ps =>
              try dsimp only
              cases ext with
              | false => exact ⟨rfl, rfl⟩
              | true =>
                  try dsimp only
                  cases lookupA ps (String.mk (normChars p.data)) with
                  | none => exact ⟨rfl, rfl⟩
                  | some entry => exact ⟨rfl, rfl⟩

theorem rename_norm_agree_left (st : FsState) (p q r : String) (now : Nat)
    (hG : normChars p.data = normChars q.data) :
    sameFsOutcome (rename st p r now) (rename st q r now) := by
  unfold rename
  try dsimp only
  rw [← hG]
  cases getParent st.root (normChars p.data) with
  | error e => exact ⟨rfl, rfl⟩
  | ok tup =>
      obtain ⟨opsegs, oname, oes, om, ot⟩ := tup
      try dsimp only
      cases lookupA oes oname with
      | none => exact ⟨rfl, rfl⟩
      | some node => exact sameFsOutcome_refl _

theorem rename_norm_agree_right (st : FsState) (p q r : String) (now : Nat)
    (hG : normChars p.data = normChars q.data) :
    sameFsOutcome (rename st r p now) (rename st r q now) := by
  unfold rename
  try dsimp only
  rw [← hG]
  exact sameFsOutcome_refl _

theorem rm_dir_tail_agree (folded : Except FsError Unit × FsState)
    (p q : String) (now : Nat) (hG : normChars p.data = normChars q.data) :
    sameFsOutcome
      (match folded.1 with
       | .error e => (.error e, folded.2)
       | .ok _ => rmdir folded.2 p now)
      (match folded.1 with
       | .error e => (.error e, folded.2)
       | .ok _ => rmdir folded.2 q now) := by
  obtain ⟨fe, fst⟩ := folded
  cases fe with
  | error e => exact ⟨rfl, rfl⟩
  | ok u => exact rmdir_norm_agree fst p q now hG

theorem rm_norm_agree (fuel : Nat) (st : FsState) (p q : String)
    (recursive : Bool) (now : Nat)
    (hG : normChars p.data = normChars q.data) :
    sameFsOutcome (rm fuel st p recursive now) (rm fuel st q recursive now) := by
  have hS := normalizeSegs_inj p.data q.data hG
  cases fuel with
  | zero => exact ⟨rfl, rfl⟩
  | succ fuel' =>
      unfold rm
      try dsimp only
      rw [← hS, ← hG]
      cases findNode st.root (normalizeSegs p.data) with
      | none =>
          cases recursive with
          | true => exact ⟨rfl, rfl⟩
          | false => exact ⟨rfl, rfl⟩
      | some node =>
          cases node with
          | file data mode mtime size ext => exact unlink_norm_agree st p q now hG
          | dir es m t =>
              try dsimp only
              by_cases hcond : (!recursive) = true ∧ es.length > 0
              · simp only [if_pos hcond]
                exact ⟨rfl, rfl⟩
              · simp only [if_neg hcond]
                exact rm_dir_tail_agree _ p q now hG

/-- C8 counterexample: `normalize` is not idempotent — a segment with
trailing whitespace followed by a slash is trimmed only by the second
application: `normalize "/a /" = "/a "` but `normalize "/a " = "/a"`. -/
theorem c8_normalize_counterexample :
    normalize (normalize "/a /") ≠ normalize "/a /" ∧
    normalize "/a /" = "/a " ∧ normalize "/a " = "/a" := by
  refine ⟨?_, ?_, ?_⟩ <;> decide

/-- C8 (amended): `normalize` returns a path with exactly one leading
slash and no empty, `"."` or `".."` segments (`".."` never escapes the
root); it is idempotent on every input whose normal form does not end in
a whitespace character (the `trim()` before splitting makes
`normalize "/a /" = "/a "` renormalize to `"/a"`); and every filesystem
operation resolves its path arguments through this normalization, so any
two spellings with the same normal form address the same node — their
outcomes agree in resulting state, success value and error code. -/
theorem c8_normalize_amended :
    (∀ p : String,
      normalize p = String.mk ('/' :: joinSegs (normalizeSegs p.data)) ∧
      ∀ s ∈ normalizeSegs p.data,
        s ≠ [] ∧ s ≠ ['.'] ∧ s ≠ ['.', '.'] ∧ '/' ∉ s) ∧
    (∀ p : String,
      (∀ c, (normChars p.data).getLast? = some c → isJsWs c = false) →
      normalize (normalize p) = normalize p) ∧
    (∀ p q : String, normalize p = normalize q →
      ∀ (st : FsState) (now : Nat) (bytes : List Nat) (mode : Option Nat)
        (recursive : Bool) (fuel : Nat) (r : String),
        sameFsOutcome (readFile st p) (readFile st q) ∧
        sameFsOutcome (writeFile st p bytes mode now)
          (writeFile st q bytes mode now) ∧
        sameFsOutcome (unlink st p now) (unlink st q now) ∧
        sameFsOutcome (readdir st p) (readdir st q) ∧
        sameFsOutcome (mkdir st p mode now) (mkdir st q mode now) ∧
        sameFsOutcome (rmdir st p now) (rmdir st q now) ∧
        sameFsOutcome (stat st p) (stat st q) ∧
        sameFsOutcome (rename st p r now) (rename st q r now) ∧
        sameFsOutcome (rename st r p now) (rename st r q now) ∧
        sameFsOutcome (rm fuel st p recursive now) (rm fuel st q recursive now)) := by
  refine ⟨?_, ?_, ?_⟩
  · intro p
    refine ⟨rfl, ?_⟩
    intro s hs
    have h := normalizeSegs_pure p.data s hs
    exact ⟨h.1, h.2.1, h.2.2.1, h.2.2.2.1⟩
  · intro p hws
    show String.mk (normChars (normalize p).data) = normalize p
    have hdata : (normalize p).data = normChars p.data := rfl
    rw [hdata, normChars_idem p.data hws]
    rfl
  · intro p q h st now bytes mode recursive fuel r
    have hG : normChars p.data = normChars q.data := by
      have := congrArg String.data h
      exact this
    have hS := normalizeSegs_inj p.data q.data hG
    exact ⟨readFile_norm_agree st p q hG,
      writeFile_norm_agree st p q bytes mode now hG,
      unlink_norm_agree st p q now hG,
      readdir_norm_agree st p q hS,
      mkdir_norm_agree st p q mode now hG,
      rmdir_norm_agree st p q now hG,
      stat_norm_agree st p q hG,
      rename_norm_agree_left st p q r now hG,
      rename_norm_agree_right st p q r now hG,
      rm_norm_agree fuel st p q recursive now hG⟩

/-- Witness for C8: idempotence at `"/a"`, and the spellings `"/a"` and
`"a"` (same normal form) behave identically for `readdir` on a concrete
filesystem. -/
theorem c8_normalize_amended_check :
    normalize (normalize "/a") = normalize "/a" ∧
    sameFsOutcome (readdir ⟨.dir [] 511 0, none⟩ "/a")
      (readdir ⟨.dir [] 511 0, none⟩ "a") := by
  refine ⟨c8_normalize_amended.2.1 "/a" (by decide), ?_⟩
  exact (c8_normalize_amended.2.2 "/a" "a" (by decide)
    ⟨.dir [] 511 0, none⟩ 0 [] none false 0 "/x").2.2.2.1

/-! ## Tree lookup and update lemmas -/

theorem findNode_nil (n : FsNode) : findNode n [] = some n := by
  cases n <;> rfl

theorem setNodeAt_nil (n x : FsNode) : setNodeAt n [] x = x := by
  cases n <;> rfl

theorem findNode_append (n : FsNode) (xs : List Seg) (s : Seg) :
    findNode n (xs ++ [s]) =
      match findNode n xs with
      | some (.dir es _ _) => lookupA es s
      | _ => none := by
  induction xs generalizing n with
  | nil =>
      cases n with
      | file data mode mtime size ext => rfl
      | dir es m t =>
          show findNode (.dir es m t) [s] = lookupA es s
          unfold findNode
          cases lookupA es s with
          | none => rfl
          | some child => exact findNode_nil child
  | cons x rest ih =>
      cases n with
      | file data mode mtime size ext => rfl
      | dir es m t =>
          show findNode (.dir es m t) (x :: (rest ++ [s])) = _
          unfold findNode
          cases lookupA es x with
          | none => rfl
          | some child => exact ih child

theorem setNodeAt_find (root : FsNode) (segs : List Seg) (x : FsNode)
    (hexists : ∃ m, findNode root segs = some m) :
    findNode (setNodeAt root segs x) segs = some x := by
  induction segs generalizing root with
  | nil => rw [setNodeAt_nil, findNode_nil]
  | cons s rest ih =>
      obtain ⟨m, hm⟩ := hexists
      cases root with
      | file data mode mtime size ext => simp [findNode] at hm
      | dir es mo t =>
          cases hl : lookupA es s with
          | none => simp [findNode, hl] at hm
          | some child =>
              show findNode (setNodeAt (.dir es mo t) (s :: rest) x) (s :: rest) =
                some x
              unfold setNodeAt
              rw [hl]
              show findNode (.dir (setA es s (setNodeAt child rest x)) mo t)
                (s :: rest) = some x
              unfold findNode
              rw [lookupA_setA_self]
              exact ih child ⟨m, by simpa [findNode, hl] using hm⟩

theorem getParent_ok (root : FsNode) (arg : Chars) (psegs : List Seg)
    (name : Seg) (es : List (Seg × FsNode)) (m t : Nat)
    (h : getParent root arg = .ok (psegs, name, es, m, t)) :
    psegs = normalizeSegs ('/' :: joinSegs (normalizeSegs (normChars arg)).dropLast) ∧
    (normalizeSegs (normChars arg)).getLast? = some name ∧
    findNode root psegs = some (.dir es m t) := by
  unfold getParent at h
  dsimp only at h
  cases hL : (normalizeSegs (normChars arg)).getLast? with
  | none =>
      rw [hL] at h
      simp at h
  | some nm =>
      rw [hL] at h
      dsimp only at h
      cases hF : findNode root
          (normalizeSegs ('/' :: joinSegs (normalizeSegs (normChars arg)).dropLast)) with
      | none =>
          rw [hF] at h
          simp at h
      | some node =>
          rw [hF] at h
          cases node with
          | file data mode mtime size ext => simp at h
          | dir es' m' t' =>
              simp only [Except.ok.injEq, Prod.mk.injEq] at h
              obtain ⟨h1, h2, h3, h4, h5⟩ := h
              subst h1
              subst h2
              subst h3
              subst h4
              subst h5
              exact ⟨rfl, rfl, hF⟩

theorem getParent_notdir (root : FsNode) (arg : Chars) (nm : Seg)
    (hL : (normalizeSegs (normChars arg)).getLast? = some nm)
    (hF : isDirOpt (findNode root
      (normalizeSegs ('/' :: joinSegs (normalizeSegs (normChars arg)).dropLast)))
      = false) :
    ∃ msg, getParent root arg = .error ⟨msg, "ENOTDIR"⟩ := by
  unfold getParent
  dsimp only
  rw [hL]
  dsimp only
  cases hFn : findNode root
      (normalizeSegs ('/' :: joinSegs (normalizeSegs (normChars arg)).dropLast)) with
  | none => exact ⟨_, rfl⟩
  | some node =>
      cases node with
      | dir es m t =>
          rw [hFn] at hF
          simp [isDirOpt] at hF
      | file data mode mtime size ext => exact ⟨_, rfl⟩

/-- C6 counterexample: `rmdir "/missing/dir"` on an empty filesystem — the
addressed path does not exist, yet the thrown code is `ENOTDIR` (from
`getParent` failing to resolve the missing parent), not `ENOENT` as the
claim requires for `rmdir`. -/
theorem c6_error_codes_counterexample :
    findNode (FsState.mk (.dir [] 511 0) none).root
      (normalizeSegs "/missing/dir".data) = none ∧
    errCode (rmdir ⟨.dir [] 511 0, none⟩ "/missing/dir" 0).1 = some "ENOTDIR" ∧
    some "ENOTDIR" ≠ some "ENOENT" := by
  refine ⟨rfl, rfl, by decide⟩

set_option maxHeartbeats 8000000 in
/-- C6 (amended): every failing `PowerSyncFs` operation throws a
structured error with a POSIX-style `code`: `ENOENT` when the path does
not resolve (`readFile`, `readdir`, `stat`) or when the parent directory
resolves but the final entry is absent (`unlink`, `rmdir`, rename
source); `ENOTDIR` when a non-directory — or a missing parent path —
occurs where a directory is required (`readdir`/`rmdir` on a file, a
`getParent`-based operation whose parent does not resolve to a
directory); `EISDIR` when `readFile` or `unlink` targets a directory;
`ENOTEMPTY` when `rmdir` or non-recursive `rm` targets a non-empty
directory; `EEXIST` when `rename`'s destination exists. -/
theorem c6_error_codes_amended :
    (∀ st p, findNode st.root (normalizeSegs (normChars p.data)) = none →
      errCode (readFile st p).1 = some "ENOENT") ∧
    (∀ st p, findNode st.root (normalizeSegs p.data) = none →
      errCode (readdir st p).1 = some "ENOENT") ∧
    (∀ st p, findNode st.root (normalizeSegs (normChars p.data)) = none →
      errCode (stat st p).1 = some "ENOENT") ∧
    (∀ st p now psegs name es m t,
      getParent st.root (normChars p.data) = .ok (psegs, name, es, m, t) →
      lookupA es name = none →
      errCode (unlink st p now).1 = some "ENOENT") ∧
    (∀ st p now psegs name es m t,
      getParent st.root (normChars p.data) = .ok (psegs, name, es, m, t) →
      lookupA es name = none →
      errCode (rmdir st p now).1 = some "ENOENT") ∧
    (∀ st oldP newP now psegs name es m t,
      getParent st.root (normChars oldP.data) = .ok (psegs, name, es, m, t) →
      lookupA es name = none →
      errCode (rename st oldP newP now).1 = some "ENOENT") ∧
    (∀ st p data mode mtime size ext,
      findNode st.root (normalizeSegs p.data) = some (.file data mode mtime size ext) →
      errCode (readdir st p).1 = some "ENOTDIR") ∧
    (∀ st p now psegs name es m t data mode mtime size ext,
      getParent st.root (normChars p.data) = .ok (psegs, name, es, m, t) →
      lookupA es name = some (.file data mode mtime size ext) →
      errCode (rmdir st p now).1 = some "ENOTDIR") ∧
    (∀ st p now nm,
      (normalizeSegs (normChars (normChars p.data))).getLast? = some nm →
      isDirOpt (findNode st.root (normalizeSegs
        ('/' :: joinSegs (normalizeSegs (normChars (normChars p.data))).dropLast)))
        = false →
      errCode (unlink st p now).1 = some "ENOTDIR") ∧
    (∀ st p es m t,
      findNode st.root (normalizeSegs (normChars p.data)) = some (.dir es m t) →
      errCode (readFile st p).1 = some "EISDIR") ∧
    (∀ st p now psegs name es m t es' m' t',
      getParent st.root (normChars p.data) = .ok (psegs, name, es, m, t) →
      lookupA es name = some (.dir es' m' t') →
      errCode (unlink st p now).1 = some "EISDIR") ∧
    (∀ st p now psegs name es m t es' m' t',
      getParent st.root (normChars p.data) = .ok (psegs, name, es, m, t) →
      lookupA es name = some (.dir es' m' t') → es'.length > 0 →
      errCode (rmdir st p now).1 = some "ENOTEMPTY") ∧
    (∀ st p now fuel es m t,
      findNode st.root (normalizeSegs p.data) = some (.dir es m t) →
      es.length > 0 →
      errCode (rm (fuel + 1) st p false now).1 = some "ENOTEMPTY") ∧
    (∀ st oldP newP now opsegs oname oes om ot node npsegs nname nes nm nt x,
      getParent st.root (normChars oldP.data) = .ok (opsegs, oname, oes, om, ot) →
      lookupA oes oname = some node →
      getParent st.root (normChars newP.data) = .ok (npsegs, nname, nes, nm, nt) →
      lookupA nes nname = some x →
      errCode (rename st oldP newP now).1 = some "EEXIST") := by
  refine ⟨?_, ?_, ?_, ?_, ?_, ?_, ?_, ?_, ?_, ?_, ?_, ?_, ?_, ?_⟩
  · intro st p h
    unfold readFile
    dsimp only
    rw [h]
    rfl
  · intro st p h
    unfold readdir
    rw [h]
    rfl
  · intro st p h
    unfold stat
    dsimp only
    rw [h]
    rfl
  · intro st p now psegs name es m t hgp hlk
    unfold unlink
    dsimp only
    rw [hgp]
    try dsimp only
    rw [hlk]
    rfl
  · intro st p now psegs name es m t hgp hlk
    unfold rmdir
    dsimp only
    rw [hgp]
    try dsimp only
    rw [hlk]
    rfl
  · intro st oldP newP now psegs name es m t hgp hlk
    unfold rename
    dsimp only
    rw [hgp]
    try dsimp only
    rw [hlk]
    rfl
  · intro st p data mode mtime size ext h
    unfold readdir
    rw [h]
    rfl
  · intro st p now psegs name es m t data mode mtime size ext hgp hlk
    unfold rmdir
    dsimp only
    rw [hgp]
    try dsimp only
    rw [hlk]
    rfl
  · intro st p now nm hL hF
    obtain ⟨msg, hgp⟩ := getParent_notdir st.root (normChars p.data) nm hL hF
    unfold unlink
    dsimp only
    rw [hgp]
    rfl
  · intro st p es m t h
    unfold readFile
    dsimp only
    rw [h]
    rfl
  · intro st p now psegs name es m t es' m' t' hgp hlk
    unfold unlink
    dsimp only
    rw [hgp]
    try dsimp only
    rw [hlk]
    rfl
  · intro st p now psegs name es m t es' m' t' hgp hlk hne
    unfold rmdir
    dsimp only
    rw [hgp]
    try dsimp only
    rw [hlk]
    try dsimp only
    rw [if_pos hne]
    rfl
  · intro st p now fuel es m t hF hne
    unfold rm
    dsimp only
    rw [hF]
    try dsimp only
    rw [if_pos ⟨rfl, hne⟩]
    rfl
  · intro st oldP newP now opsegs oname oes om ot node npsegs nname nes nm nt x
      hgpo hlko hgpn hlkn
    unfold rename
    dsimp only
    rw [hgpo]
    try dsimp only
    rw [hlko]
    try dsimp only
    rw [hgpn]
    try dsimp only
    rw [hlkn]
    rfl

/-- Witness for C6 (amended) at concrete states: `readFile` of a missing
path, `unlink` of a missing entry in an existing directory, `rmdir` of a
non-empty directory, and `rename` onto an existing destination. -/
theorem c6_error_codes_amended_check :
    errCode (readFile ⟨.dir [] 511 0, none⟩ "/nope").1 = some "ENOENT" ∧
    errCode (unlink ⟨.dir [] 511 0, none⟩ "/nope" 3).1 = some "ENOENT" ∧
    errCode (rmdir ⟨.dir [(['d'],
      .dir [(['x'], .file (some [1]) 438 0 1 false)] 511 0)] 511 0, none⟩
      "/d" 3).1 = some "ENOTEMPTY" ∧
    errCode (rename ⟨.dir [(['a'], .file (some [1]) 438 0 1 false),
      (['b'], .file (some [2]) 438 0 1 false)] 511 0, none⟩
      "/a" "/b" 3).1 = some "EEXIST" := by
  have h := c6_error_codes_amended
  refine ⟨?_, ?_, ?_, ?_⟩
  · exact h.1 _ "/nope" rfl
  · exact h.2.2.2.1 _ "/nope" 3 [] ['n', 'o', 'p', 'e'] [] 511 0 rfl rfl
  · exact h.2.2.2.2.2.2.2.2.2.2.2.1 _ "/d" 3 [] ['d']
      [(['d'], .dir [(['x'], .file (some [1]) 438 0 1 false)] 511 0)] 511 0
      [(['x'], .file (some [1]) 438 0 1 false)] 511 0 rfl rfl
      (by decide)
  · exact h.2.2.2.2.2.2.2.2.2.2.2.2.2 _ "/a" "/b" 3 [] ['a']
      [(['a'], .file (some [1]) 438 0 1 false),
       (['b'], .file (some [2]) 438 0 1 false)] 511 0
      (.file (some [1]) 438 0 1 false) [] ['b']
      [(['a'], .file (some [1]) 438 0 1 false),
       (['b'], .file (some [2]) 438 0 1 false)] 511 0
      (.file (some [2]) 438 0 1 false)
      rfl rfl rfl rfl

/-- `writeFile` on a pack-suffixed normalized path with a pack store:
the full result, written out (write-through to the store, external node). -/
theorem writeFile_pack_eq (st : FsState) (p : String) (bytes : List Nat)
    (mode : Option Nat) (now : Nat) (ps : List (String × PackEntry))
    (psegs : List Seg) (name : Seg) (es : List (Seg × FsNode)) (m t : Nat)
    (hps : st.packStore = some ps)
    (hgp : getParent st.root (normChars p.data) = .ok (psegs, name, es, m, t))
    (hpk : packHandles (normChars p.data) = true) :
    writeFile st p bytes mode now =
      (.ok (), ⟨setNodeAt st.root psegs
          (.dir (setA es name
            (.file none (mode.getD 438) now bytes.length true)) m now),
        some (setA ps (String.mk (normChars p.data))
          (⟨bytes, now⟩ : PackEntry))⟩) := by
  unfold writeFile
  dsimp only
  rw [hgp]
  try dsimp only
  rw [hps]
  try dsimp only
  rw [hpk]
  rfl

/-- `rename` of an external source file to a fresh destination succeeds and
moves the pack-store entry from the old normalized key to the new one. -/
theorem rename_external_move (st : FsState) (oldP newP : String) (now : Nat)
    (ps : List (String × PackEntry)) (opsegs : List Seg) (oname : Seg)
    (oes : List (Seg × FsNode)) (om ot : Nat) (d : Option (List Nat))
    (mo mt sz : Nat) (npsegs : List Seg) (nname : Seg)
    (nes : List (Seg × FsNode)) (nm nt : Nat) (entry : PackEntry)
    (hps : st.packStore = some ps)
    (hgpo : getParent st.root (normChars oldP.data) =
      .ok (opsegs, oname, oes, om, ot))
    (hlko : lookupA oes oname = some (.file d mo mt sz true))
    (hgpn : getParent st.root (normChars newP.data) =
      .ok (npsegs, nname, nes, nm, nt))
    (hlkn : lookupA nes nname = none)
    (hlkp : lookupA ps (String.mk (normChars oldP.data)) = some entry) :
    (rename st oldP newP now).1 = .ok () ∧
    (rename st oldP newP now).2.packStore =
      some (delA (setA ps (String.mk (normChars newP.data))
        (⟨entry.data, now⟩ : PackEntry)) (String.mk (normChars oldP.data))) := by
  unfold rename
  dsimp only
  rw [hgpo]
  try dsimp only
  rw [hlko]
  try dsimp only
  rw [hgpn]
  try dsimp only
  rw [hlkn]
  try dsimp only
  rw [hps]
  try dsimp only
  rw [hlkp]
  try dsimp only
  cases hf : findNode (setNodeAt st.root opsegs (.dir (delA oes oname) om now))
      npsegs with
  | none => exact ⟨rfl, rfl⟩
  | some node2 =>
      cases node2 with
      | dir nes1 nm1 nt1 => exact ⟨rfl, rfl⟩
      | file d2 mo2 mt2 sz2 ext2 => exact ⟨rfl, rfl⟩

/-- C7: a `writeFile` whose normalized path ends in `.pack`, on a filesystem
constructed with a pack store, writes the bytes through to the store under
the normalized path and records an external tree node (`data = none`,
`size = bytes.length`, `mtime = now`); a non-pack path buffers the bytes
inline in the node and leaves the store untouched; a subsequent `readFile`
of the pack path returns exactly the written bytes. -/
theorem c7_pack_write_through :
    (∀ st p bytes mode now ps psegs name es m t,
      st.packStore = some ps →
      getParent st.root (normChars p.data) = .ok (psegs, name, es, m, t) →
      packHandles (normChars p.data) = true →
      writeFile st p bytes mode now =
        (.ok (), ⟨setNodeAt st.root psegs
            (.dir (setA es name
              (.file none (mode.getD 438) now bytes.length true)) m now),
          some (setA ps (String.mk (normChars p.data))
            (⟨bytes, now⟩ : PackEntry))⟩)) ∧
    (∀ st p bytes mode now psegs name es m t,
      getParent st.root (normChars p.data) = .ok (psegs, name, es, m, t) →
      packHandles (normChars p.data) = false →
      writeFile st p bytes mode now =
        (.ok (), ⟨setNodeAt st.root psegs
            (.dir (setA es name
              (.file (some bytes) (mode.getD 438) now bytes.length false))
              m now), st.packStore⟩)) ∧
    (∀ st p bytes mode now ps psegs name es m t,
      st.packStore = some ps →
      getParent st.root (normChars p.data) = .ok (psegs, name, es, m, t) →
      packHandles (normChars p.data) = true →
      normalizeSegs (normChars p.data) = psegs ++ [name] →
      (readFile (writeFile st p bytes mode now).2 p).1 = .ok bytes) := by
  refine ⟨?_, ?_, ?_⟩
  · intro st p bytes mode now ps psegs name es m t hps hgp hpk
    exact writeFile_pack_eq st p bytes mode now ps psegs name es m t hps hgp hpk
  · intro st p bytes mode now psegs name es m t hgp hpk
    unfold writeFile
    dsimp only
    rw [hgp]
    try dsimp only
    cases hps : st.packStore with
    | none => rfl
    | some ps =>
        try dsimp only
        rw [hpk]
        rfl
  · intro st p bytes mode now ps psegs name es m t hps hgp hpk hsegs
    rw [writeFile_pack_eq st p bytes mode now ps psegs name es m t hps hgp hpk]
    unfold readFile
    dsimp only
    rw [hsegs, findNode_append]
    have hfind : findNode st.root psegs = some (.dir es m t) :=
      (getParent_ok st.root (normChars p.data) psegs name es m t hgp).2.2
    rw [setNodeAt_find st.root psegs _ ⟨_, hfind⟩]
    try dsimp only
    rw [lookupA_setA_self]
    try dsimp only
    rw [if_pos rfl]
    try dsimp only
    rw [lookupA_setA_self]

/-- Witness for C7: writing `[1, 2, 3]` to `/x.pack` on an empty filesystem
with an empty pack store yields the external node and the store entry;
writing `[7]` to `/y.txt` buffers inline; reading `/x.pack` back after the
pack write returns `[1, 2, 3]`. -/
theorem c7_pack_write_through_check :
    (writeFile ⟨.dir [] 511 0, some []⟩ "/x.pack" [1, 2, 3] none 5 =
      (.ok (), ⟨.dir [(['x', '.', 'p', 'a', 'c', 'k'],
          .file none 438 5 3 true)] 511 5,
        some [("/x.pack", ⟨[1, 2, 3], 5⟩)]⟩)) ∧
    (writeFile ⟨.dir [] 511 0, some []⟩ "/y.txt" [7] none 5 =
      (.ok (), ⟨.dir [(['y', '.', 't', 'x', 't'],
          .file (some [7]) 438 5 1 false)] 511 5, some []⟩)) ∧
    (readFile (writeFile ⟨.dir [] 511 0, some []⟩ "/x.pack" [1, 2, 3]
        none 5).2 "/x.pack").1 = .ok [1, 2, 3] := by
  have h := c7_pack_write_through
  refine ⟨?_, ?_, ?_⟩
  · exact h.1 ⟨.dir [] 511 0, some []⟩ "/x.pack" [1, 2, 3] none 5 []
      [] ['x', '.', 'p', 'a', 'c', 'k'] [] 511 0 rfl rfl rfl
  · exact h.2.1 ⟨.dir [] 511 0, some []⟩ "/y.txt" [7] none 5
      [] ['y', '.', 't', 'x', 't'] [] 511 0 rfl rfl
  · exact h.2.2 ⟨.dir [] 511 0, some []⟩ "/x.pack" [1, 2, 3] none 5 []
      [] ['x', '.', 'p', 'a', 'c', 'k'] [] 511 0 rfl rfl rfl rfl

/-- C7 counterexample: at `/a /x.pack` (an intermediate segment with a
trailing space) `writeFile` succeeds — `getParent` re-normalizes the parent
prefix `/a ` to `/a`, so the node lands under directory `a` and the store
under key `/a /x.pack` — but a subsequent `readFile` of the very same path
walks the literal one-pass segments `a `, `x.pack`, finds nothing, and
throws `ENOENT` instead of returning the written bytes. -/
theorem c7_pack_readback_counterexample :
    (writeFile ⟨.dir [(['a'], .dir [] 511 0)] 511 0, some []⟩
      "/a /x.pack" [1, 2, 3] none 5).1 = .ok () ∧
    errCode (readFile (writeFile ⟨.dir [(['a'], .dir [] 511 0)] 511 0,
      some []⟩ "/a /x.pack" [1, 2, 3] none 5).2 "/a /x.pack").1 =
      some "ENOENT" ∧
    (readFile (writeFile ⟨.dir [(['a'], .dir [] 511 0)] 511 0,
      some []⟩ "/a /x.pack" [1, 2, 3] none 5).2 "/a /x.pack").1 ≠
      .ok [1, 2, 3] := by
  refine ⟨rfl, rfl, ?_⟩
  intro hc
  exact Except.noConfusion hc

/-- C9: `rename` onto an existing destination name fails with a structured
`EEXIST` error and returns the filesystem state entirely unchanged (tree and
pack store); a successful rename of an external source file moves the
pack-store entry from the old normalized key to the new one, so the new key
maps to the moved bytes and the old key no longer resolves. -/
theorem c9_rename_no_overwrite :
    (∀ st oldP newP now opsegs oname oes om ot node npsegs nname nes nm nt x,
      getParent st.root (normChars oldP.data) =
        .ok (opsegs, oname, oes, om, ot) →
      lookupA oes oname = some node →
      getParent st.root (normChars newP.data) =
        .ok (npsegs, nname, nes, nm, nt) →
      lookupA nes nname = some x →
      rename st oldP newP now =
        (.error ⟨"EEXIST: file already exists", "EEXIST"⟩, st)) ∧
    (∀ st oldP newP now ps opsegs oname oes om ot d mo mt sz
        npsegs nname nes nm nt entry,
      st.packStore = some ps →
      getParent st.root (normChars oldP.data) =
        .ok (opsegs, oname, oes, om, ot) →
      lookupA oes oname = some (.file d mo mt sz true) →
      getParent st.root (normChars newP.data) =
        .ok (npsegs, nname, nes, nm, nt) →
      lookupA nes nname = none →
      lookupA ps (String.mk (normChars oldP.data)) = some entry →
      (ps.map Prod.fst).Nodup →
      String.mk (normChars oldP.data) ≠ String.mk (normChars newP.data) →
      (rename st oldP newP now).1 = .ok () ∧
      (rename st oldP newP now).2.packStore =
        some (delA (setA ps (String.mk (normChars newP.data))
          (⟨entry.data, now⟩ : PackEntry))
          (String.mk (normChars oldP.data))) ∧
      lookupA (delA (setA ps (String.mk (normChars newP.data))
          (⟨entry.data, now⟩ : PackEntry)) (String.mk (normChars oldP.data)))
        (String.mk (normChars newP.data)) =
          some (⟨entry.data, now⟩ : PackEntry) ∧
      lookupA (delA (setA ps (String.mk (normChars newP.data))
          (⟨entry.data, now⟩ : PackEntry)) (String.mk (normChars oldP.data)))
        (String.mk (normChars oldP.data)) = none) := by
  constructor
  · intro st oldP newP now opsegs oname oes om ot node npsegs nname nes nm nt x
      hgpo hlko hgpn hlkn
    unfold rename
    dsimp only
    rw [hgpo]
    try dsimp only
    rw [hlko]
    try dsimp only
    rw [hgpn]
    try dsimp only
    rw [hlkn]
  · intro st oldP newP now ps opsegs oname oes om ot d mo mt sz
      npsegs nname nes nm nt entry hps hgpo hlko hgpn hlkn hlkp hnd hne
    obtain ⟨h1, h2⟩ := rename_external_move st oldP newP now ps opsegs oname
      oes om ot d mo mt sz npsegs nname nes nm nt entry hps hgpo hlko hgpn
      hlkn hlkp
    refine ⟨h1, h2, ?_, ?_⟩
    · rw [lookupA_delA_ne _ _ _ hne, lookupA_setA_self]
    · exact lookupA_delA_self _ _ (nodup_fst_setA ps _ _ hnd)

/-- Witness for C9 at concrete states: renaming `/a` onto the existing `/b`
returns the `EEXIST` error with the state unchanged; renaming the external
pack file `/a.pack` to the fresh `/b.pack` succeeds and moves the store
entry to the new key. -/
theorem c9_rename_no_overwrite_check :
    (rename ⟨.dir [(['a'], .file (some [1]) 438 0 1 false),
        (['b'], .file (some [2]) 438 0 1 false)] 511 0, none⟩ "/a" "/b" 3 =
      (.error ⟨"EEXIST: file already exists", "EEXIST"⟩,
        ⟨.dir [(['a'], .file (some [1]) 438 0 1 false),
          (['b'], .file (some [2]) 438 0 1 false)] 511 0, none⟩)) ∧
    ((rename ⟨.dir [(['a', '.', 'p', 'a', 'c', 'k'],
          .file none 438 0 3 true)] 511 0,
        some [("/a.pack", ⟨[9, 9, 9], 0⟩)]⟩ "/a.pack" "/b.pack" 7).1 =
      .ok () ∧
    (rename ⟨.dir [(['a', '.', 'p', 'a', 'c', 'k'],
          .file none 438 0 3 true)] 511 0,
        some [("/a.pack", ⟨[9, 9, 9], 0⟩)]⟩ "/a.pack" "/b.pack" 7).2.packStore =
      some (delA (setA [("/a.pack", ⟨[9, 9, 9], 0⟩)]
        (String.mk (normChars "/b.pack".data))
        (⟨[9, 9, 9], 7⟩ : PackEntry)) (String.mk (normChars "/a.pack".data))) ∧
    lookupA (delA (setA [("/a.pack", ⟨[9, 9, 9], 0⟩)]
        (String.mk (normChars "/b.pack".data)) (⟨[9, 9, 9], 7⟩ : PackEntry))
        (String.mk (normChars "/a.pack".data)))
      (String.mk (normChars "/b.pack".data)) =
        some (⟨[9, 9, 9], 7⟩ : PackEntry) ∧
    lookupA (delA (setA [("/a.pack", ⟨[9, 9, 9], 0⟩)]
        (String.mk (normChars "/b.pack".data)) (⟨[9, 9, 9], 7⟩ : PackEntry))
        (String.mk (normChars "/a.pack".data)))
      (String.mk (normChars "/a.pack".data)) = none) := by
  have h := c9_rename_no_overwrite
  refine ⟨?_, ?_⟩
  · exact h.1 _ "/a" "/b" 3 [] ['a']
      [(['a'], .file (some [1]) 438 0 1 false),
       (['b'], .file (some [2]) 438 0 1 false)] 511 0
      (.file (some [1]) 438 0 1 false) [] ['b']
      [(['a'], .file (some [1]) 438 0 1 false),
       (['b'], .file (some [2]) 438 0 1 false)] 511 0
      (.file (some [2]) 438 0 1 false) rfl rfl rfl rfl
  · exact h.2 _ "/a.pack" "/b.pack" 7 [("/a.pack", ⟨[9, 9, 9], 0⟩)]
      [] ['a', '.', 'p', 'a', 'c', 'k']
      [(['a', '.', 'p', 'a', 'c', 'k'], .file none 438 0 3 true)] 511 0
      none 438 0 3 [] ['b', '.', 'p', 'a', 'c', 'k']
      [(['a', '.', 'p', 'a', 'c', 'k'], .file none 438 0 3 true)] 511 0
      (⟨[9, 9, 9], 0⟩ : PackEntry) rfl rfl rfl rfl rfl rfl
      (by decide) (by decide)

end Powergit

